import Mathlib

/-!
Verification of the felicity expression-language REPL core (src/main.rs):
a shallow embedding of the `Expr` data model, the chumsky-combinator parser
`parser()`, and the tree-walking evaluator `eval`, together with theorems
settling the specification claims.

Conventions of the embedding:
* Rust's `f64` is modelled by a type parameter `α` equipped with an `Ops α`
  record of the five arithmetic operations the evaluator uses (so theorems
  instantiate to IEEE semantics as well as to exact `ℚ` arithmetic used for
  the concrete test programs, all of which stay in the exactly-representable
  integer range).
* The two `Vec`s of scope bindings are lists whose HEAD is the top of the
  stack (the end of the Rust `Vec`); `push` is cons, `pop` is tail,
  `iter().rev().find(..)` is `List.find?`.
* Evaluation takes a fuel argument bounding recursion depth; `none` means
  the fuel ran out (the Rust original recurses unboundedly and can only
  exhaust its call stack, spec section 5). A spent result `some (r, vs, fs)`
  carries the `Result` together with the final contents of the two stacks,
  modelling the `&mut Vec` threading of the source.
-/

namespace Felicity

/-- The abstract syntax tree of the language (`enum Expr` in src/main.rs),
polymorphic in the number carrier standing for Rust's `f64`. -/
inductive Expr (α : Type) : Type
  | Num (x : α)
  | Var (name : String)
  | Neg (a : Expr α)
  | Add (a : Expr α) (b : Expr α)
  | Sub (a : Expr α) (b : Expr α)
  | Mul (a : Expr α) (b : Expr α)
  | Div (a : Expr α) (b : Expr α)
  | Call (name : String) (args : List (Expr α))
  | Let (name : String) (rhs : Expr α) (thenE : Expr α)
  | Fn (name : String) (params : List String) (body : Expr α) (thenE : Expr α)
  deriving Repr

/-- The arithmetic operations of the number carrier: the five `f64`
operations the evaluator applies. -/
structure Ops (α : Type) where
  neg : α → α
  add : α → α → α
  sub : α → α → α
  mul : α → α → α
  div : α → α → α

/-- Exact integer arithmetic, the carrier used for the concrete test
programs. Every concrete program appearing in a claim computes with small
integers and no division, on which `f64` arithmetic is exact, so this
carrier observes the same results as the Rust `f64` evaluator. (`div` is
integer division; it is never exercised by a concrete program, and the
division claims are stated over an arbitrary `Ops`.) -/
def intOps : Ops ℤ where
  neg x := -x
  add x y := x + y
  sub x y := x - y
  mul x y := x * y
  div x y := x / y

/-- The variable stack `Vec<(&String, f64)>`; head of the list is the top
of the stack (the end of the Rust `Vec`). -/
abbrev Vars (α : Type) := List (String × α)

/-- The function stack `Vec<(&String, &[String], &Expr)>`; head of the list
is the top of the stack. -/
abbrev Funcs (α : Type) := List (String × List String × Expr α)

/-- The message produced by `format!("Cannot find variable `{}` in scope", name)`. -/
def unboundVariableMsg (name : String) : String :=
  "Cannot find variable `" ++ name ++ "` in scope"

/-- The message produced by `format!("Cannot find function `{}` in scope", name)`. -/
def undefinedFunctionMsg (name : String) : String :=
  "Cannot find function `" ++ name ++ "` in scope"

/-- The message produced by
`format!("Wrong number of arguments for function `{}`: expected {}, found {}", ..)`. -/
def arityMismatchMsg (name : String) (expected found : Nat) : String :=
  "Wrong number of arguments for function `" ++ name ++ "`: expected "
    ++ toString expected ++ ", found " ++ toString found

/-- `Vec::append`: moves all elements of `other` onto the end of `target`,
leaving `other` empty. With the top-at-head list orientation, the moved
elements arrive reversed on top of `target`. Returns the updated
`(target, other)` pair. -/
def vecAppend {β : Type} (target other : List β) : List β × List β :=
  (other.reverse ++ target, [])

/-- One step of the argument-evaluation pipeline in the `Call` arm:
`args.iter().map(|arg| eval(arg, vars, funcs)).zip(arg_names.iter())
 .map(|(val, name)| Ok((name, val?))).collect::<Result<_, String>>()`.
The iterator is driven left to right, an argument is evaluated before the
zip looks at the next name, and the first error stops the remaining
arguments from being evaluated. The stacks are threaded through the
argument evaluations exactly as the `&mut` references are. -/
def evalArgsWith {α : Type}
    (ev : Expr α → Vars α → Funcs α → Option (Except String α × Vars α × Funcs α)) :
    List String → List (Expr α) → Vars α → Funcs α →
    Option (Except String (List (String × α)) × Vars α × Funcs α)
  | _, [], vars, funcs => some (.ok [], vars, funcs)
  | names, arg :: rest, vars, funcs =>
    match ev arg vars funcs with
    | none => none
    | some (.error e, vs, fs) => some (.error e, vs, fs)
    | some (.ok v, vs, fs) =>
      match names with
      | [] => some (.ok [], vs, fs)
      | n :: ns =>
        match evalArgsWith ev ns rest vs fs with
        | none => none
        | some (.error e, vs2, fs2) => some (.error e, vs2, fs2)
        | some (.ok bs, vs2, fs2) => some (.ok ((n, v) :: bs), vs2, fs2)

/-- The evaluator `fn eval(expr, vars, funcs) -> Result<f64, String>` of
src/main.rs, with a fuel bound on recursion depth (`none` = fuel spent,
standing for the unbounded recursion of the original). Both stacks are
threaded in and out, modelling the `&mut Vec` parameters. Note the `Call`
arm: `vecAppend` models `vars.append(&mut args)`, which leaves the local
bindings vector empty, so the subsequent
`vars.truncate(vars.len() - args.len())` removes `drained.length = 0`
entries — a faithful rendering of the source. -/
def eval {α : Type} (O : Ops α) :
    Nat → Expr α → Vars α → Funcs α → Option (Except String α × Vars α × Funcs α)
  | 0, _, _, _ => none
  | fuel + 1, e, vars, funcs =>
    match e with
    | .Num x => some (.ok x, vars, funcs)
    | .Neg a =>
      match eval O fuel a vars funcs with
      | none => none
      | some (.error err, vs, fs) => some (.error err, vs, fs)
      | some (.ok v, vs, fs) => some (.ok (O.neg v), vs, fs)
    | .Add a b =>
      match eval O fuel a vars funcs with
      | none => none
      | some (.error err, vs, fs) => some (.error err, vs, fs)
      | some (.ok va, vs, fs) =>
        match eval O fuel b vs fs with
        | none => none
        | some (.error err, vs2, fs2) => some (.error err, vs2, fs2)
        | some (.ok vb, vs2, fs2) => some (.ok (O.add va vb), vs2, fs2)
    | .Sub a b =>
      match eval O fuel a vars funcs with
      | none => none
      | some (.error err, vs, fs) => some (.error err, vs, fs)
      | some (.ok va, vs, fs) =>
        match eval O fuel b vs fs with
        | none => none
        | some (.error err, vs2, fs2) => some (.error err, vs2, fs2)
        | some (.ok vb, vs2, fs2) => some (.ok (O.sub va vb), vs2, fs2)
    | .Mul a b =>
      match eval O fuel a vars funcs with
      | none => none
      | some (.error err, vs, fs) => some (.error err, vs, fs)
      | some (.ok va, vs, fs) =>
        match eval O fuel b vs fs with
        | none => none
        | some (.error err, vs2, fs2) => some (.error err, vs2, fs2)
        | some (.ok vb, vs2, fs2) => some (.ok (O.mul va vb), vs2, fs2)
    | .Div a b =>
      match eval O fuel a vars funcs with
      | none => none
      | some (.error err, vs, fs) => some (.error err, vs, fs)
      | some (.ok va, vs, fs) =>
        match eval O fuel b vs fs with
        | none => none
        | some (.error err, vs2, fs2) => some (.error err, vs2, fs2)
        | some (.ok vb, vs2, fs2) => some (.ok (O.div va vb), vs2, fs2)
    | .Var name =>
      match vars.find? (fun p => p.1 == name) with
      | some p => some (.ok p.2, vars, funcs)
      | none => some (.error (unboundVariableMsg name), vars, funcs)
    | .Let name rhs thenE =>
      match eval O fuel rhs vars funcs with
      | none => none
      | some (.error err, vs, fs) => some (.error err, vs, fs)
      | some (.ok v, vs, fs) =>
        match eval O fuel thenE ((name, v) :: vs) fs with
        | none => none
        | some (out, vs2, fs2) => some (out, vs2.tail, fs2)
    | .Call name args =>
      match funcs.find? (fun q => q.1 == name) with
      | none => some (.error (undefinedFunctionMsg name), vars, funcs)
      | some (_, argNames, body) =>
        if argNames.length == args.length then
          match evalArgsWith (fun a vs fs => eval O fuel a vs fs) argNames args vars funcs with
          | none => none
          | some (.error err, vs, fs) => some (.error err, vs, fs)
          | some (.ok bindings, vs, fs) =>
            let appended := vecAppend vs bindings
            match eval O fuel body appended.1 fs with
            | none => none
            | some (out, vs2, fs2) => some (out, vs2.drop appended.2.length, fs2)
        else
          some (.error (arityMismatchMsg name argNames.length args.length), vars, funcs)
    | .Fn name params body thenE =>
      match eval O fuel thenE vars ((name, params, body) :: funcs) with
      | none => none
      | some (out, vs, fs) => some (out, vs, fs.tail)


/-! ### The parser

The chumsky combinators used by `fn parser()` are modelled as backtracking
parsers over a list of characters: `none` is failure, and a success returns
the parsed value with the unconsumed remainder. `or` runs its right branch
from the same position the left branch started at, which is chumsky's
backtracking behaviour. The recursive parsers (`recursive(|expr| ..)`,
`recursive(|decl| ..)`) and the repetition combinators take a fuel bound;
the top-level `parse` supplies fuel `input length + 1`, which every
concrete and general theorem below shows is sufficient for its input. -/

/-- A backtracking character parser: `none` is failure (a chumsky parse
error; the claims only depend on success versus failure, not on the error
payload). -/
def P (β : Type) : Type := List Char → Option (β × List Char)

/-- chumsky `map`. -/
def pMap {β γ : Type} (p : P β) (f : β → γ) : P γ := fun s =>
  match p s with
  | some (v, r) => some (f v, r)
  | none => none

/-- chumsky `or`: try the left parser; on failure, run the right parser
from the original position. -/
def pOr {β : Type} (p q : P β) : P β := fun s =>
  match p s with
  | some vr => some vr
  | none => q s

/-- chumsky `then`: sequence two parsers, pairing their outputs. -/
def pThen {β γ : Type} (p : P β) (q : P γ) : P (β × γ) := fun s =>
  match p s with
  | none => none
  | some (v, r) =>
    match q r with
    | none => none
    | some (w, r2) => some ((v, w), r2)

/-- chumsky `ignore_then`. -/
def pIgnoreThen {β γ : Type} (p : P β) (q : P γ) : P γ := fun s =>
  match p s with
  | none => none
  | some (_, r) => q r

/-- chumsky `then_ignore`. -/
def pThenIgnore {β γ : Type} (p : P β) (q : P γ) : P β := fun s =>
  match p s with
  | none => none
  | some (v, r) =>
    match q r with
    | none => none
    | some (_, r2) => some (v, r2)

/-- chumsky `just(c)`: consume exactly the character `c`. -/
def pJust (c : Char) : P Unit := fun s =>
  match s with
  | d :: r => if d = c then some ((), r) else none
  | [] => none

/-- chumsky `padded()`: skip whitespace on both sides of the parser. -/
def pPadded {β : Type} (p : P β) : P β := fun s =>
  match p (s.dropWhile Char.isWhitespace) with
  | none => none
  | some (v, r) => some (v, r.dropWhile Char.isWhitespace)

/-- First character of a C-style identifier (chumsky `text::ident()`):
an ASCII letter or an underscore. -/
def identStart (c : Char) : Bool := c.isAlpha || c = '_'

/-- Continuation character of a C-style identifier: an ASCII letter, an
ASCII digit, or an underscore. -/
def identCont (c : Char) : Bool := c.isAlphanum || c = '_'

/-- chumsky `text::ident()` (no padding): a C-style identifier. Note that
it accepts any identifier-shaped word, including `let` and `fn`. -/
def pIdentRaw : P String := fun s =>
  match s with
  | c :: cs =>
    if identStart c then
      some (String.mk (c :: cs.takeWhile identCont), cs.dropWhile identCont)
    else none
  | [] => none

/-- The local `ident` of `fn parser()`: `text::ident().padded()`. -/
def pIdent : P String := pPadded pIdentRaw

/-- chumsky `text::keyword(kw)`: parse an identifier and require it to be
exactly `kw` (so `letx` does not match the keyword `let`). Not padded. -/
def pKeyword (kw : String) : P Unit := fun s =>
  match pIdentRaw s with
  | some (w, r) => if w = kw then some ((), r) else none
  | none => none

/-- Value of a decimal digit character. -/
def digitVal (c : Char) : Nat := c.toNat - '0'.toNat

/-- Value of a sequence of decimal digit characters (the `s.parse()` of the
source, abstracted by the `ofNat` carrier injection at the use site). -/
def digitsVal (ds : List Char) : Nat := ds.foldl (fun a c => a * 10 + digitVal c) 0

/-- chumsky `text::int(10)` (no padding): either a nonzero digit followed
by any digits, or the single digit `0`. -/
def pIntRaw : P Nat := fun s =>
  match s with
  | c :: cs =>
    if c.isDigit && !(c = '0') then
      some (digitsVal (c :: cs.takeWhile Char.isDigit), cs.dropWhile Char.isDigit)
    else if c = '0' then some (0, cs)
    else none
  | [] => none

/-- chumsky `repeated()` (with fuel for the iteration count): greedily
collect successes of `p`; a failing iteration consumes nothing. -/
def pRep {β : Type} (p : P β) : Nat → P (List β)
  | 0 => fun _ => none
  | f + 1 => fun s =>
    match p s with
    | none => some ([], s)
    | some (v, r) =>
      match pRep p f r with
      | none => none
      | some (vs, r2) => some (v :: vs, r2)

/-- The loop of `lhs.then(op.then(item).repeated()).foldl(..)`: repeatedly
parse an operator and its right operand, folding left-associatively onto
the accumulator; if the operator succeeds but the operand fails, the whole
iteration is rewound (chumsky backtracks the failing element of
`repeated()`). -/
def chainlLoop {β : Type} (op : P (β → β → β)) (item : P β) : Nat → β → P β
  | 0, _ => fun _ => none
  | f + 1, acc => fun s =>
    match op s with
    | none => some (acc, s)
    | some (g, s1) =>
      match item s1 with
      | none => some (acc, s)
      | some (v, s2) => chainlLoop op item f (g acc v) s2

/-- A left-associative operator chain: one `item`, then the fold loop. -/
def mkChain {β : Type} (op : P (β → β → β)) (item : P β) (lf : Nat) : P β := fun s =>
  match item s with
  | none => none
  | some (v, s1) => chainlLoop op item lf v s1

/-- The loop of `separated_by(just(',')).allow_trailing()` after the first
item: further `,`-prefixed items, and optionally one trailing `,` (consumed
when no item follows it). -/
def pSepLoop {β : Type} (item : P β) : Nat → P (List β)
  | 0 => fun _ => none
  | f + 1 => fun s =>
    match pJust ',' s with
    | none => some ([], s)
    | some (_, s1) =>
      match item s1 with
      | none => some ([], s1)
      | some (v, s2) =>
        match pSepLoop item f s2 with
        | none => none
        | some (vs, s3) => some (v :: vs, s3)

/-- `item.separated_by(just(',')).allow_trailing()`: zero or more items. -/
def pSepBy {β : Type} (item : P β) (lf : Nat) : P (List β) := fun s =>
  match item s with
  | none => some ([], s)
  | some (v, s1) =>
    match pSepLoop item lf s1 with
    | none => none
    | some (vs, s2) => some (v :: vs, s2)

/-- chumsky `delimited_by(just(l), just(r))`. -/
def pDelim {β : Type} (p : P β) (l r : Char) : P β :=
  pIgnoreThen (pJust l) (pThenIgnore p (pJust r))

/-- The local `int` of `fn parser()`: `text::int(10).map(Num).padded()`,
with `s.parse::<f64>().unwrap()` on the digit string abstracted as the
carrier injection `ofNat` applied to the digit value. -/
def mkInt {α : Type} (ofNat : Nat → α) : P (Expr α) :=
  pPadded (pMap pIntRaw (fun n => Expr.Num (ofNat n)))

/-- The local `call` of `fn parser()`: an identifier followed by a
parenthesised, comma-separated, trailing-comma-tolerant argument list. -/
def mkCall {α : Type} (sub : P (Expr α)) (lf : Nat) : P (Expr α) :=
  pMap (pThen pIdent (pDelim (pSepBy sub lf) '(' ')'))
    (fun fa => Expr.Call fa.1 fa.2)

/-- The local `atom` of `fn parser()`:
`int.or(expr.delimited_by(..)).or(call).or(ident.map(Var))`. -/
def mkAtom {α : Type} (ofNat : Nat → α) (sub : P (Expr α)) (lf : Nat) : P (Expr α) :=
  pOr (pOr (pOr (mkInt ofNat) (pDelim sub '(' ')')) (mkCall sub lf))
    (pMap pIdent Expr.Var)

/-- The local `unary` of `fn parser()`:
`op('-').repeated().then(atom).foldr(Neg)`. -/
def mkUnary {α : Type} (atom : P (Expr α)) (lf : Nat) : P (Expr α) := fun s =>
  match pRep (pPadded (pJust '-')) lf s with
  | none => none
  | some (ms, s1) =>
    match atom s1 with
    | none => none
    | some (a, s2) => some (ms.foldr (fun _ r => Expr.Neg r) a, s2)

/-- The operator alternative `op('*').to(Mul).or(op('/').to(Div))`. -/
def mulOp {α : Type} : P (Expr α → Expr α → Expr α) :=
  pOr (pMap (pPadded (pJust '*')) (fun _ => Expr.Mul))
    (pMap (pPadded (pJust '/')) (fun _ => Expr.Div))

/-- The operator alternative `op('+').to(Add).or(op('-').to(Sub))`. -/
def addOp {α : Type} : P (Expr α → Expr α → Expr α) :=
  pOr (pMap (pPadded (pJust '+')) (fun _ => Expr.Add))
    (pMap (pPadded (pJust '-')) (fun _ => Expr.Sub))

/-- The local `product` of `fn parser()`. -/
def mkProduct {α : Type} (item : P (Expr α)) (lf : Nat) : P (Expr α) :=
  mkChain mulOp item lf

/-- The local `sum` of `fn parser()`. -/
def mkSum {α : Type} (item : P (Expr α)) (lf : Nat) : P (Expr α) :=
  mkChain addOp item lf

/-- The `recursive(|expr| ..)` block of `fn parser()`: the arithmetic
expression grammar, with fuel for the recursion through parentheses and
call arguments. -/
def pExpr {α : Type} (ofNat : Nat → α) : Nat → P (Expr α)
  | 0 => fun _ => none
  | f + 1 =>
    mkSum (mkProduct (mkUnary (mkAtom ofNat (fun s => pExpr ofNat f s) (f + 1)) (f + 1))
      (f + 1)) (f + 1)

/-- The local `let_expr` of `fn parser()`. -/
def mkLet {α : Type} (sub decl : P (Expr α)) : P (Expr α) :=
  pMap (pThen (pThenIgnore (pThen (pThenIgnore
      (pIgnoreThen (pKeyword "let") pIdent) (pJust '=')) sub) (pJust ';')) decl)
    (fun x => Expr.Let x.1.1 x.1.2 x.2)

/-- The local `fn_expr` of `fn parser()`. -/
def mkFn {α : Type} (sub decl : P (Expr α)) (lf : Nat) : P (Expr α) :=
  pMap (pThen (pThenIgnore (pThen (pThenIgnore (pThen
      (pIgnoreThen (pKeyword "fn") pIdent) (pRep pIdent lf)) (pJust '=')) sub)
      (pJust ';')) decl)
    (fun x => Expr.Fn x.1.1.1 x.1.1.2 x.1.2 x.2)

/-- The `recursive(|decl| ..)` block of `fn parser()`:
`let_expr.or(fn_expr).or(expr).padded()`. -/
def pDecl {α : Type} (ofNat : Nat → α) : Nat → P (Expr α)
  | 0 => fun _ => none
  | f + 1 =>
    pPadded (pOr (pOr (mkLet (fun s => pExpr ofNat f s) (fun s => pDecl ofNat f s))
      (mkFn (fun s => pExpr ofNat f s) (fun s => pDecl ofNat f s) (f + 1)))
      (fun s => pExpr ofNat f s))

/-- The boundary function `parser().parse(source)`: run the declaration
grammar followed by `end()` (the whole input must be consumed), with fuel
`input length + 1`. -/
def parse {α : Type} (ofNat : Nat → α) (s : String) : Option (Expr α) :=
  match pDecl ofNat (s.length + 1) s.toList with
  | some (e, []) => some e
  | _ => none

/-- The parser at the integer carrier used by the concrete test programs. -/
def parseZ : String → Option (Expr ℤ) := parse Int.ofNat

/-- The purely arithmetic expressions: built only from `Num`, `Neg`,
`Add`, `Sub`, `Mul` and `Div` (no variables, calls or declarations). -/
def arithOnly {α : Type} : Expr α → Bool
  | .Num _ => true
  | .Neg a => arithOnly a
  | .Add a b => arithOnly a && arithOnly b
  | .Sub a b => arithOnly a && arithOnly b
  | .Mul a b => arithOnly a && arithOnly b
  | .Div a b => arithOnly a && arithOnly b
  | .Var _ => false
  | .Call _ _ => false
  | .Let _ _ _ => false
  | .Fn _ _ _ _ => false

/-- Height of an expression tree: the recursion depth `eval` needs. -/
def heightE {α : Type} : Expr α → Nat
  | .Num _ => 1
  | .Var _ => 1
  | .Neg a => heightE a + 1
  | .Add a b => max (heightE a) (heightE b) + 1
  | .Sub a b => max (heightE a) (heightE b) + 1
  | .Mul a b => max (heightE a) (heightE b) + 1
  | .Div a b => max (heightE a) (heightE b) + 1
  | .Call _ _ => 1
  | .Let _ _ _ => 1
  | .Fn _ _ _ _ => 1

/-! ### Helper lemmas about stack lookup -/

/-- The first matching entry, scanning from the top of the stack: if no
entry above `(name, v)` carries `name`, the reverse scan finds `(name, v)`. -/
theorem find_entry {γ : Type} (name : String) (v : γ) (pre rest : List (String × γ))
    (h : ∀ q ∈ pre, q.1 ≠ name) :
    (pre ++ (name, v) :: rest).find? (fun p => p.1 == name) = some (name, v) := by
  induction pre with
  | nil => simp
  | cons q pre ih =>
    have hq : (q.1 == name) = false :=
      beq_eq_false_iff_ne.mpr (h q (by simp))
    rw [List.cons_append, List.find?_cons_of_neg _ (by simp [hq])]
    exact ih fun r hr => h r (by simp [hr])

/-- A scan for a name that occurs nowhere in the stack finds nothing. -/
theorem find_absent {γ : Type} (name : String) (l : List (String × γ))
    (h : ∀ q ∈ l, q.1 ≠ name) :
    l.find? (fun p => p.1 == name) = none := by
  rw [List.find?_eq_none]
  intro q hq
  simp [beq_eq_false_iff_ne.mpr (h q hq)]


/-! ### Claims about the evaluator -/

/-- C5: a `Var` node scans the variable stack from the most recently pushed
entry down and returns the value of the first entry whose name matches, so
shadowing resolves to the innermost binding; if no entry matches, it fails
with the unbound-variable error for that name. The third conjunct runs the
spec example `let x = 1; let x = 2; x` through `parse` and `eval` and
observes the value `2`. -/
theorem var_lookup_innermost (fuel : Nat) (name : String) (funcs : Funcs ℤ) :
    (∀ (v : ℤ) (pre rest : Vars ℤ), (∀ q ∈ pre, q.1 ≠ name) →
      eval intOps (fuel + 1) (.Var name) (pre ++ (name, v) :: rest) funcs
        = some (.ok v, pre ++ (name, v) :: rest, funcs))
    ∧ (∀ vars : Vars ℤ, (∀ q ∈ vars, q.1 ≠ name) →
      eval intOps (fuel + 1) (.Var name) vars funcs
        = some (.error (unboundVariableMsg name), vars, funcs))
    ∧ ((parseZ "let x = 1; let x = 2; x").bind (fun ast => eval intOps 9 ast [] [])
        = some (.ok 2, [], [])) := by
  refine ⟨fun v pre rest h => ?_, fun vars h => ?_, rfl⟩
  · simp [eval, find_entry name v pre rest h]
  · simp [eval, find_absent name vars h]

/-- Witness for `var_lookup_innermost`: the innermost-of-two shadowed
bindings is returned, and an absent name yields the unbound-variable
error. -/
theorem var_lookup_innermost_witness :
    (eval intOps 1 (.Var "x") [("y", (5 : ℤ)), ("x", 2), ("x", 1)] []
      = some (.ok 2, [("y", 5), ("x", 2), ("x", 1)], []))
    ∧ (eval intOps 1 (.Var "z") [("x", (1 : ℤ))] []
      = some (.error (unboundVariableMsg "z"), [("x", 1)], [])) :=
  ⟨(var_lookup_innermost 0 "x" []).1 2 [("y", 5)] [("x", 1)] (by decide),
   (var_lookup_innermost 0 "z" []).2.1 [("x", 1)] (by decide)⟩

/-- C6: when the function is found but the argument count differs from the
parameter count, evaluation fails with the arity-mismatch error carrying
the name, the expected (parameter) count and the found (argument) count;
the stacks are returned untouched and no argument expression is evaluated
(the statement holds for arbitrary argument expressions, including ones
whose evaluation would error or diverge, and the result stacks are exactly
the input stacks). The final conjunct runs the spec example
`fn add a b = a+b; add(1)`. -/
theorem arity_mismatch_before_args (fuel : Nat) (name : String) (params : List String)
    (body : Expr ℤ) (args : List (Expr ℤ)) (pre rest : Funcs ℤ) (vars : Vars ℤ)
    (hpre : ∀ q ∈ pre, q.1 ≠ name) (hne : params.length ≠ args.length) :
    eval intOps (fuel + 1) (.Call name args) vars (pre ++ (name, params, body) :: rest)
      = some (.error (arityMismatchMsg name params.length args.length), vars,
          pre ++ (name, params, body) :: rest)
    ∧ ((parseZ "fn add a b = a+b; add(1)").bind (fun ast => eval intOps 9 ast [] [])
        = some (.error (arityMismatchMsg "add" 2 1), [], [])) := by
  refine ⟨?_, rfl⟩
  have hfind := find_entry name (params, body) pre rest hpre
  simp [eval, hfind, hne]

/-- Witness for `arity_mismatch_before_args`: calling a two-parameter
function with one argument (which is itself an unbound variable, and is
nevertheless not evaluated) produces the arity error. -/
theorem arity_mismatch_before_args_witness :
    eval intOps 1 (.Call "add" [.Var "zzz"]) []
        [("add", ["a", "b"], Expr.Add (.Var "a") (.Var "b"))]
      = some (.error (arityMismatchMsg "add" 2 1), [],
          [("add", ["a", "b"], Expr.Add (.Var "a") (.Var "b"))]) :=
  (arity_mismatch_before_args 0 "add" ["a", "b"] (Expr.Add (.Var "a") (.Var "b"))
    [.Var "zzz"] [] [] [] (by decide) (by decide)).1

/-- C7: calls are dynamically scoped — the body is evaluated against the
caller's still-live variable stack with the parameter bindings pushed on
top, so the free `x` in `fn f y = x+y` resolves to the caller's binding at
call time and `let x = 5; fn f y = x+y; f(1)` evaluates to `6`. (The final
variable stack `[("x", 5)]` recorded here also exhibits the `Call` arm's
failure to pop its parameter binding: the `Let` pop removed the leaked
`("y", 1)` instead of its own binding.) -/
theorem dynamic_scoping_example :
    parseZ "let x = 5; fn f y = x+y; f(1)"
      = some (.Let "x" (.Num 5) (.Fn "f" ["y"]
          (.Add (.Var "x") (.Var "y")) (.Call "f" [.Num 1])))
    ∧ eval intOps 9 (.Let "x" (.Num 5) (.Fn "f" ["y"]
          (.Add (.Var "x") (.Var "y")) (.Call "f" [.Num 1]))) [] []
      = some (.ok 6, [("x", 5)], []) :=
  ⟨rfl, rfl⟩

/-- C10: with a duplicated parameter name, a call pushes the argument
bindings left to right onto the shared variable stack, and a reference to
the duplicated name in the body resolves to the argument of the rightmost
occurrence, because lookup scans most-recently-pushed-first. Stated for an
arbitrary surrounding state, and run on the concrete program
`fn g x x = x; g(1, 2)`, which evaluates to `2`. -/
theorem dup_param_resolves_rightmost (fuel : Nat) (p fname : String) (a b : ℤ)
    (vars : Vars ℤ) (funcs : Funcs ℤ) :
    eval intOps (fuel + 2) (.Call fname [.Num a, .Num b]) vars
        ((fname, [p, p], .Var p) :: funcs)
      = some (.ok b, (p, b) :: (p, a) :: vars, (fname, [p, p], .Var p) :: funcs)
    ∧ ((parseZ "fn g x x = x; g(1, 2)").bind (fun ast => eval intOps 9 ast [] [])
        = some (.ok 2, [("x", 2), ("x", 1)], [])) := by
  refine ⟨?_, rfl⟩
  simp [eval, evalArgsWith, vecAppend]

/-- C9: on expressions built only from `Num`, `Neg`, `Add`, `Sub`, `Mul`
and `Div`, the evaluator always returns `Ok` and leaves the stacks
untouched — for an arbitrary operation record `O`, so in particular for
IEEE `f64` semantics, where `O.div` applied to a zero divisor is an
infinity or NaN rather than an error. The second conjunct pins the
division case down: a `Div` whose divisor evaluates to any value `b`
(including zero) returns `Ok (O.div a b)` — the operation's value, never
an `EvalError`. -/
theorem arith_always_ok {α : Type} (O : Ops α) :
    (∀ (e : Expr α) (fuel : Nat) (vars : Vars α) (funcs : Funcs α),
        arithOnly e = true → heightE e ≤ fuel →
        ∃ v, eval O fuel e vars funcs = some (.ok v, vars, funcs))
    ∧ (∀ (a b : α) (fuel : Nat) (vars : Vars α) (funcs : Funcs α),
        eval O (fuel + 2) (.Div (.Num a) (.Num b)) vars funcs
          = some (.ok (O.div a b), vars, funcs)) := by
  constructor
  · intro e fuel
    induction fuel generalizing e with
    | zero =>
      intro vars funcs _ hh
      exact absurd hh (by cases e <;> simp [heightE])
    | succ f ih =>
      intro vars funcs ha hh
      cases e with
      | Num x => exact ⟨x, by simp [eval]⟩
      | Neg a =>
        simp only [arithOnly] at ha
        simp only [heightE] at hh
        obtain ⟨v, hv⟩ := ih a vars funcs ha (by omega)
        exact ⟨O.neg v, by simp [eval, hv]⟩
      | Add a b =>
        simp only [arithOnly, Bool.and_eq_true] at ha
        simp only [heightE] at hh
        obtain ⟨va, hva⟩ := ih a vars funcs ha.1 (by omega)
        obtain ⟨vb, hvb⟩ := ih b vars funcs ha.2 (by omega)
        exact ⟨O.add va vb, by simp [eval, hva, hvb]⟩
      | Sub a b =>
        simp only [arithOnly, Bool.and_eq_true] at ha
        simp only [heightE] at hh
        obtain ⟨va, hva⟩ := ih a vars funcs ha.1 (by omega)
        obtain ⟨vb, hvb⟩ := ih b vars funcs ha.2 (by omega)
        exact ⟨O.sub va vb, by simp [eval, hva, hvb]⟩
      | Mul a b =>
        simp only [arithOnly, Bool.and_eq_true] at ha
        simp only [heightE] at hh
        obtain ⟨va, hva⟩ := ih a vars funcs ha.1 (by omega)
        obtain ⟨vb, hvb⟩ := ih b vars funcs ha.2 (by omega)
        exact ⟨O.mul va vb, by simp [eval, hva, hvb]⟩
      | Div a b =>
        simp only [arithOnly, Bool.and_eq_true] at ha
        simp only [heightE] at hh
        obtain ⟨va, hva⟩ := ih a vars funcs ha.1 (by omega)
        obtain ⟨vb, hvb⟩ := ih b vars funcs ha.2 (by omega)
        exact ⟨O.div va vb, by simp [eval, hva, hvb]⟩
      | Var name => simp [arithOnly] at ha
      | Call name args => simp [arithOnly] at ha
      | Let name rhs thenE => simp [arithOnly] at ha
      | Fn name params body thenE => simp [arithOnly] at ha
  · intro a b fuel vars funcs
    simp [eval]

/-- Witness for `arith_always_ok`: division of `1` by a zero divisor at the
integer instance returns `Ok` with the operation's value, and the general
arithmetic-only totality applies to that same expression. -/
theorem arith_always_ok_witness :
    (∃ v, eval intOps 2 (.Div (.Num 1) (.Num 0)) [] [] = some (.ok v, [], []))
    ∧ eval intOps 2 (.Div (.Num 1) (.Num 0)) [] []
        = some (.ok (intOps.div 1 0), [], []) :=
  ⟨(arith_always_ok intOps).1 (.Div (.Num 1) (.Num 0)) 2 [] [] (by decide) (by decide),
   (arith_always_ok intOps).2 1 0 0 [] []⟩

/-- The AST of the spec's recursion example `fn f n = f(n); f(0)`. -/
def recProg : Expr ℤ :=
  .Fn "f" ["n"] (.Call "f" [.Var "n"]) (.Call "f" [.Num 0])

/-- The function stack while the `then` branch of `recProg` runs. -/
def recFuncs : Funcs ℤ := [("f", ["n"], .Call "f" [.Var "n"])]

/-- Inside `recProg`, a call to `f` always finds `f` on the function stack
and recurses until the fuel is spent: the result is `none` (the Rust
original recurses forever), never an error — in particular never the
undefined-function error. -/
theorem recProg_call_spins (fuel : Nat) :
    (∀ vars : Vars ℤ, eval intOps fuel (.Call "f" [.Num 0]) vars recFuncs = none)
    ∧ (∀ (v : ℤ) (vars : Vars ℤ),
        eval intOps fuel (.Call "f" [.Var "n"]) (("n", v) :: vars) recFuncs = none) := by
  have hfind : recFuncs.find? (fun q => q.1 == "f")
      = some ("f", ["n"], .Call "f" [.Var "n"]) := rfl
  induction fuel with
  | zero => exact ⟨fun _ => rfl, fun _ _ => rfl⟩
  | succ f ih =>
    have hnum : ∀ vars : Vars ℤ,
        eval intOps f (.Num 0) vars recFuncs = none
          ∨ eval intOps f (.Num 0) vars recFuncs = some (.ok 0, vars, recFuncs) := by
      intro vars
      cases f with
      | zero => exact Or.inl rfl
      | succ g => exact Or.inr (by simp [eval])
    have hvar : ∀ (v : ℤ) (vars : Vars ℤ),
        eval intOps f (.Var "n") (("n", v) :: vars) recFuncs = none
          ∨ eval intOps f (.Var "n") (("n", v) :: vars) recFuncs
              = some (.ok v, ("n", v) :: vars, recFuncs) := by
      intro v vars
      cases f with
      | zero => exact Or.inl rfl
      | succ g => exact Or.inr (by simp [eval])
    constructor
    · intro vars
      rcases hnum vars with h | h
      · simp [eval, evalArgsWith, hfind, h]
      · have hbody := ih.2 0 vars
        simp [eval, evalArgsWith, vecAppend, hfind, h, hbody]
    · intro v vars
      rcases hvar v vars with h | h
      · simp [eval, evalArgsWith, hfind, h]
      · have hbody := ih.2 v (("n", v) :: vars)
        simp [eval, evalArgsWith, vecAppend, hfind, h, hbody]

/-- C8: `fn f n = f(n); f(0)` parses, and during evaluation the function
stack entry pushed by the `Fn` node stays visible to every nested
evaluation, so the inner call `f(n)` always resolves `f`: at every fuel
bound the program spins out of fuel (`none`, the unbounded recursion of
the original), and never returns the undefined-function error (or any
other result). -/
theorem recursion_resolves_self :
    parseZ "fn f n = f(n); f(0)" = some recProg
    ∧ ∀ fuel : Nat, eval intOps fuel recProg [] [] = none := by
  refine ⟨rfl, fun fuel => ?_⟩
  cases fuel with
  | zero => rfl
  | succ f =>
    have hc : eval intOps f (.Call "f" [.Num 0]) []
        [("f", ["n"], .Call "f" [.Var "n"])] = none :=
      (recProg_call_spins f).1 []
    simp [recProg, eval, hc]

/-! ### Claims the code refutes -/

/-- C1 (code bug): after a call returns, the parameter bindings are NOT
popped: `vars.append(&mut args)` empties `args`, so
`vars.truncate(vars.len() - args.len())` truncates by zero. Evaluating
`fn f x = x; f(1) + x` therefore succeeds with `2` — the `x` after the
call still sees the leaked binding `("x", 1)`, which is also visible in
the final variable stack — where the specified behaviour (pop exactly the
pushed bindings, restoring the caller's stack) would make the final `x`
unbound. -/
theorem call_leaks_param_bindings :
    parseZ "fn f x = x; f(1) + x"
      = some (.Fn "f" ["x"] (.Var "x") (.Add (.Call "f" [.Num 1]) (.Var "x")))
    ∧ eval intOps 9
        (.Fn "f" ["x"] (.Var "x") (.Add (.Call "f" [.Num 1]) (.Var "x"))) [] []
      = some (.ok 2, [("x", 1)], []) :=
  ⟨rfl, rfl⟩

/-- C3 (code bug): the `Let` arm does pop exactly one entry on exit, but
that does not return the stacks to their pre-node state once a nested call
has leaked its parameter bindings: evaluating
`let a = 1; fn f x = x; f(2)` from empty stacks ends with variable stack
`[("a", 1)]` — the single pop removed the leaked `("x", 2)` instead of the
`let` binding — not the pre-node empty stack. -/
theorem let_pop_misses_leaked_binding :
    parseZ "let a = 1; fn f x = x; f(2)"
      = some (.Let "a" (.Num 1)
          (.Fn "f" ["x"] (.Var "x") (.Call "f" [.Num 2])))
    ∧ eval intOps 9
        (.Let "a" (.Num 1) (.Fn "f" ["x"] (.Var "x") (.Call "f" [.Num 2]))) [] []
      = some (.ok 2, [("a", 1)], []) :=
  ⟨rfl, rfl⟩

/-! ### Claims about keyword handling -/

/-- C2 counterexample: the bare input `let` does not fail with a syntax
error — it parses as the variable reference `Var "let"`, because
`text::ident()` accepts any identifier-shaped word and the keyword parsers
are only tried at the head of a declaration. -/
theorem keyword_parses_as_identifier :
    parseZ "let" = some (.Var "let") :=
  rfl

/-- C2 amended: `let` and `fn` are recognised as keywords only at the head
of a declaration; in identifier positions they parse as ordinary
identifiers — as a variable reference, a `let` binding name, a function
name and parameter name, and a called function name — rather than
producing a syntax error. -/
theorem keywords_accepted_as_identifiers :
    parseZ "fn" = some (.Var "fn")
    ∧ parseZ "let let = 1; let" = some (.Let "let" (.Num 1) (.Var "let"))
    ∧ parseZ "let fn = 2; fn" = some (.Let "fn" (.Num 2) (.Var "fn"))
    ∧ parseZ "fn let let = let; let(3)"
        = some (.Fn "let" ["let"] (.Var "let") (.Call "let" [.Num 3])) :=
  ⟨rfl, rfl, rfl, rfl⟩

/-! ### C4: well-formed arithmetic source expressions

A well-formed arithmetic source expression (no variables, calls or
declarations) is modelled as a precedence tree `AExp` — whose shape encodes
the spec's reading `unary > {* /} > {+ -}` with `*`, `/`, `+`, `-` left
associative — together with the canonical rendering `printSum` that emits
the expression with the minimal parentheses that reading requires (so the
rendering of `Add (Num 1) (Mul (Num 2) (Num 3))` is `1+2*3`, and of
`Sub (Sub 1 2) 3` is `1-2-3`). Numeric literals carry their source digit
string. `specEval` is the spec-side meaning: standard arithmetic applied
structurally, over an arbitrary operation record, so instantiating the
operations (and the literal injection `ofNat`) with IEEE `f64` semantics
yields exactly floating-point arithmetic. -/

/-- A well-formed arithmetic source expression, by precedence level:
sums of products of unary-negations of atoms, literals carrying their
source digit strings. -/
inductive AExp : Type
  | num (ds : List Char)
  | neg (a : AExp)
  | add (a b : AExp)
  | sub (a b : AExp)
  | mul (a b : AExp)
  | div (a b : AExp)
  deriving DecidableEq, Repr

/-- A well-formed integer literal: nonempty, all decimal digits, and no
leading zero (except the literal `0` itself), matching `text::int(10)`. -/
def numLitB : List Char → Bool
  | [] => false
  | c :: tl => c.isDigit && tl.all Char.isDigit && (!(c == '0') || tl.isEmpty)

/-- All literals of the expression are well formed. -/
def litsOk : AExp → Bool
  | .num ds => numLitB ds
  | .neg a => litsOk a
  | .add a b => litsOk a && litsOk b
  | .sub a b => litsOk a && litsOk b
  | .mul a b => litsOk a && litsOk b
  | .div a b => litsOk a && litsOk b

/-- Number of constructors of an `AExp` (fuel accounting). -/
def sizeA : AExp → Nat
  | .num _ => 1
  | .neg a => sizeA a + 1
  | .add a b => sizeA a + sizeA b + 1
  | .sub a b => sizeA a + sizeA b + 1
  | .mul a b => sizeA a + sizeA b + 1
  | .div a b => sizeA a + sizeA b + 1

/-- Height of an `AExp` (recursion depth `eval` needs). -/
def heightA : AExp → Nat
  | .num _ => 1
  | .neg a => heightA a + 1
  | .add a b => max (heightA a) (heightA b) + 1
  | .sub a b => max (heightA a) (heightA b) + 1
  | .mul a b => max (heightA a) (heightA b) + 1
  | .div a b => max (heightA a) (heightA b) + 1

/-- The four canonical renderings of an `AExp`, as
`(sum-level, product-level, unary-level, atom-level)` forms: each level
parenthesises exactly the subexpressions whose top operator binds looser
than that level. Computed simultaneously so the definition is structural. -/
def printAll : AExp → List Char × List Char × List Char × List Char
  | .num ds => (ds, ds, ds, ds)
  | .neg a =>
    let u := '-' :: (printAll a).2.2.1
    (u, u, u, '(' :: (u ++ [')']))
  | .add a b =>
    let s := (printAll a).1 ++ '+' :: (printAll b).2.1
    let w := '(' :: (s ++ [')'])
    (s, w, w, w)
  | .sub a b =>
    let s := (printAll a).1 ++ '-' :: (printAll b).2.1
    let w := '(' :: (s ++ [')'])
    (s, w, w, w)
  | .mul a b =>
    let p := (printAll a).2.1 ++ '*' :: (printAll b).2.2.1
    let w := '(' :: (p ++ [')'])
    (p, p, w, w)
  | .div a b =>
    let p := (printAll a).2.1 ++ '/' :: (printAll b).2.2.1
    let w := '(' :: (p ++ [')'])
    (p, p, w, w)

/-- Sum-level rendering: the canonical source text of the expression. -/
def printSum (e : AExp) : List Char := (printAll e).1

/-- Product-level rendering. -/
def printProd (e : AExp) : List Char := (printAll e).2.1

/-- Unary-level rendering. -/
def printUnary (e : AExp) : List Char := (printAll e).2.2.1

/-- Atom-level rendering. -/
def printAtom (e : AExp) : List Char := (printAll e).2.2.2

/-- The `Expr` tree the parser is expected to produce for an `AExp`. -/
def toExpr {α : Type} (ofNat : Nat → α) : AExp → Expr α
  | .num ds => .Num (ofNat (digitsVal ds))
  | .neg a => .Neg (toExpr ofNat a)
  | .add a b => .Add (toExpr ofNat a) (toExpr ofNat b)
  | .sub a b => .Sub (toExpr ofNat a) (toExpr ofNat b)
  | .mul a b => .Mul (toExpr ofNat a) (toExpr ofNat b)
  | .div a b => .Div (toExpr ofNat a) (toExpr ofNat b)

/-- Modelled from the spec's words: standard arithmetic evaluated over the
precedence structure — each literal is injected by `ofNat` and each
operator is applied to the meanings of its operands. -/
def specEval {α : Type} (ofNat : Nat → α) (O : Ops α) : AExp → α
  | .num ds => ofNat (digitsVal ds)
  | .neg a => O.neg (specEval ofNat O a)
  | .add a b => O.add (specEval ofNat O a) (specEval ofNat O b)
  | .sub a b => O.sub (specEval ofNat O a) (specEval ofNat O b)
  | .mul a b => O.mul (specEval ofNat O a) (specEval ofNat O b)
  | .div a b => O.div (specEval ofNat O a) (specEval ofNat O b)

/-! ### C4: spine decompositions of the precedence levels -/

/-- The leftmost non-`add`/`sub` item of a sum chain. -/
def sumHead : AExp → AExp
  | .add a _ => sumHead a
  | .sub a _ => sumHead a
  | e => e

/-- The rendering of a sum chain after its first item. -/
def sumTail : AExp → List Char
  | .add a b => sumTail a ++ '+' :: printProd b
  | .sub a b => sumTail a ++ '-' :: printProd b
  | _ => []

/-- Number of `+`/`-` links in the top-level sum chain. -/
def sumLinks : AExp → Nat
  | .add a _ => sumLinks a + 1
  | .sub a _ => sumLinks a + 1
  | _ => 0

/-- Rebuild the `Expr` of a sum chain with its first item replaced. -/
def sumGraft {α : Type} (ofNat : Nat → α) (acc : Expr α) : AExp → Expr α
  | .add a b => .Add (sumGraft ofNat acc a) (toExpr ofNat b)
  | .sub a b => .Sub (sumGraft ofNat acc a) (toExpr ofNat b)
  | _ => acc

/-- The leftmost non-`mul`/`div` item of a product chain. -/
def prodHead : AExp → AExp
  | .mul a _ => prodHead a
  | .div a _ => prodHead a
  | e => e

/-- The rendering of a product chain after its first item. -/
def prodTail : AExp → List Char
  | .mul a b => prodTail a ++ '*' :: printUnary b
  | .div a b => prodTail a ++ '/' :: printUnary b
  | _ => []

/-- Number of `*`/`/` links in the top-level product chain. -/
def prodLinks : AExp → Nat
  | .mul a _ => prodLinks a + 1
  | .div a _ => prodLinks a + 1
  | _ => 0

/-- Rebuild the `Expr` of a product chain with its first item replaced. -/
def prodGraft {α : Type} (ofNat : Nat → α) (acc : Expr α) : AExp → Expr α
  | .mul a b => .Mul (prodGraft ofNat acc a) (toExpr ofNat b)
  | .div a b => .Div (prodGraft ofNat acc a) (toExpr ofNat b)
  | _ => acc

/-- Number of leading unary negations. -/
def negCount : AExp → Nat
  | .neg a => negCount a + 1
  | _ => 0

/-- The expression under the leading unary negations. -/
def unCore : AExp → AExp
  | .neg a => unCore a
  | e => e

/-- Extra fuel demanded at atom level (a non-literal atom must open a
parenthesis, which costs one unit of `pExpr` recursion). -/
def extraA : AExp → Nat
  | .num _ => 0
  | _ => 1

/-- Extra fuel demanded at unary level. -/
def extraU : AExp → Nat
  | .add _ _ => 1
  | .sub _ _ => 1
  | .mul _ _ => 1
  | .div _ _ => 1
  | _ => 0

/-- Extra fuel demanded at product level. -/
def extraP : AExp → Nat
  | .add _ _ => 1
  | .sub _ _ => 1
  | _ => 0

/-! ### C4: what may legally follow a rendering at each level -/

/-- Input at which an atom-level parse is allowed to resume: anything not
starting with a digit (the integer parser is greedy) or whitespace (the
`padded` combinators are greedy). -/
def stopAtom : List Char → Prop
  | [] => True
  | c :: _ => c.isDigit = false ∧ c.isWhitespace = false

/-- Input at which a product-level parse must stop: additionally not
starting with `*` or `/`. -/
def stopProd : List Char → Prop
  | [] => True
  | c :: _ => c.isDigit = false ∧ c.isWhitespace = false ∧ c ≠ '*' ∧ c ≠ '/'

/-- Input at which a sum-level parse must stop: additionally not starting
with `+` or `-`. -/
def stopSum : List Char → Prop
  | [] => True
  | c :: _ => c.isDigit = false ∧ c.isWhitespace = false ∧ c ≠ '*' ∧ c ≠ '/'
      ∧ c ≠ '+' ∧ c ≠ '-'

/-- A printed form starts with a digit, `(` or `-`. -/
def goodHead : List Char → Prop
  | [] => False
  | c :: _ => c.isDigit = true ∨ c = '(' ∨ c = '-'

/-! ### C4: character and list facts -/

theorem digit_not_ws {c : Char} (h : c.isDigit = true) : c.isWhitespace = false := by
  simp only [Char.isWhitespace]
  by_contra hw
  simp only [Bool.or_eq_true, decide_eq_true_eq, Bool.not_eq_false] at hw
  rcases hw with ((rfl | rfl) | rfl) | rfl <;> exact absurd h (by decide)

theorem digit_not_identStart {c : Char} (h : c.isDigit = true) : identStart c = false := by
  simp only [Char.isDigit, Bool.and_eq_true, decide_eq_true_eq] at h
  have h2 : c.val.toNat ≤ 57 := h.2
  simp only [identStart, Char.isAlpha, Char.isUpper, Char.isLower, Bool.or_eq_false_iff,
    Bool.and_eq_false_iff, decide_eq_false_iff_not]
  refine ⟨⟨Or.inl ?_, Or.inl ?_⟩, ?_⟩
  · intro hc
    have h65 : (65 : UInt32).toNat ≤ c.val.toNat := hc
    have e65 : (65 : UInt32).toNat = 65 := rfl
    omega
  · intro hc
    have h97 : (97 : UInt32).toNat ≤ c.val.toNat := hc
    have e97 : (97 : UInt32).toNat = 97 := rfl
    omega
  · rintro rfl
    exact absurd h (by decide)

theorem stopProd_of_stopSum {r : List Char} (h : stopSum r) : stopProd r := by
  cases r with
  | nil => trivial
  | cons c t => exact ⟨h.1, h.2.1, h.2.2.1, h.2.2.2.1⟩

theorem stopAtom_of_stopProd {r : List Char} (h : stopProd r) : stopAtom r := by
  cases r with
  | nil => trivial
  | cons c t => exact ⟨h.1, h.2.1⟩

theorem goodHead_append {l r : List Char} (h : goodHead l) : goodHead (l ++ r) := by
  cases l with
  | nil => exact h.elim
  | cons c t => exact h

theorem goodHead_dropWhile_ws {l : List Char} (h : goodHead l) :
    l.dropWhile Char.isWhitespace = l := by
  cases l with
  | nil => rfl
  | cons c t =>
    have hc : c.isWhitespace = false := by
      rcases h with hd | rfl | rfl
      · exact digit_not_ws hd
      · decide
      · decide
    simp [List.dropWhile_cons, hc]

theorem takeDrop_digits {tl rest : List Char} (h : ∀ c ∈ tl, c.isDigit = true)
    (hr : stopAtom rest) :
    (tl ++ rest).takeWhile Char.isDigit = tl
    ∧ (tl ++ rest).dropWhile Char.isDigit = rest := by
  induction tl with
  | nil =>
    cases rest with
    | nil => exact ⟨rfl, rfl⟩
    | cons c t => simp [List.takeWhile_cons, List.dropWhile_cons, hr.1]
  | cons c tl ih =>
    have hc : c.isDigit = true := h c (by simp)
    have ih' := ih fun d hd => h d (by simp [hd])
    simp [List.takeWhile_cons, List.dropWhile_cons, hc, ih'.1, ih'.2]

/-! ### C4: rendering equations and head facts -/

theorem printSum_num (ds : List Char) : printSum (.num ds) = ds := rfl
theorem printProd_num (ds : List Char) : printProd (.num ds) = ds := rfl
theorem printUnary_num (ds : List Char) : printUnary (.num ds) = ds := rfl
theorem printAtom_num (ds : List Char) : printAtom (.num ds) = ds := rfl
theorem printSum_add (a b : AExp) : printSum (.add a b) = printSum a ++ '+' :: printProd b := rfl
theorem printSum_sub (a b : AExp) : printSum (.sub a b) = printSum a ++ '-' :: printProd b := rfl
theorem printProd_mul (a b : AExp) :
    printProd (.mul a b) = printProd a ++ '*' :: printUnary b := rfl
theorem printProd_div (a b : AExp) :
    printProd (.div a b) = printProd a ++ '/' :: printUnary b := rfl
theorem printUnary_neg (a : AExp) : printUnary (.neg a) = '-' :: printUnary a := rfl
theorem printSum_mul (a b : AExp) : printSum (.mul a b) = printProd (.mul a b) := rfl
theorem printSum_div (a b : AExp) : printSum (.div a b) = printProd (.div a b) := rfl
theorem printSum_neg (a : AExp) : printSum (.neg a) = printUnary (.neg a) := rfl
theorem printProd_neg (a : AExp) : printProd (.neg a) = printUnary (.neg a) := rfl
theorem printProd_add (a b : AExp) : printProd (.add a b) = printAtom (.add a b) := rfl
theorem printProd_sub (a b : AExp) : printProd (.sub a b) = printAtom (.sub a b) := rfl
theorem printUnary_add (a b : AExp) : printUnary (.add a b) = printAtom (.add a b) := rfl
theorem printUnary_sub (a b : AExp) : printUnary (.sub a b) = printAtom (.sub a b) := rfl
theorem printUnary_mul (a b : AExp) : printUnary (.mul a b) = printAtom (.mul a b) := rfl
theorem printUnary_div (a b : AExp) : printUnary (.div a b) = printAtom (.div a b) := rfl

/-- Every non-literal prints, at atom level, as its parenthesised sum
rendering. -/
theorem printAtom_paren (e : AExp) (h : extraA e = 1) :
    printAtom e = '(' :: (printSum e ++ [')']) := by
  cases e with
  | num ds => exact absurd h (by simp [extraA])
  | neg a => rfl
  | add a b => rfl
  | sub a b => rfl
  | mul a b => rfl
  | div a b => rfl

/-- Every printed form is nonempty and starts with a digit, `(` or `-`. -/
theorem printHeads (e : AExp) (hl : litsOk e = true) :
    goodHead (printSum e) ∧ goodHead (printProd e) ∧ goodHead (printUnary e)
    ∧ goodHead (printAtom e) := by
  induction e with
  | num ds =>
    cases ds with
    | nil => exact absurd hl (by simp [litsOk, numLitB])
    | cons c tl =>
      have hc : c.isDigit = true := by
        simp only [litsOk, numLitB, Bool.and_eq_true] at hl
        exact hl.1.1
      exact ⟨Or.inl hc, Or.inl hc, Or.inl hc, Or.inl hc⟩
  | neg a iha =>
    exact ⟨Or.inr (Or.inr rfl), Or.inr (Or.inr rfl), Or.inr (Or.inr rfl),
      Or.inr (Or.inl rfl)⟩
  | add a b iha ihb =>
    simp only [litsOk, Bool.and_eq_true] at hl
    have ha := (iha hl.1).1
    refine ⟨?_, Or.inr (Or.inl rfl), Or.inr (Or.inl rfl), Or.inr (Or.inl rfl)⟩
    rw [printSum_add]
    exact goodHead_append ha
  | sub a b iha ihb =>
    simp only [litsOk, Bool.and_eq_true] at hl
    have ha := (iha hl.1).1
    refine ⟨?_, Or.inr (Or.inl rfl), Or.inr (Or.inl rfl), Or.inr (Or.inl rfl)⟩
    rw [printSum_sub]
    exact goodHead_append ha
  | mul a b iha ihb =>
    simp only [litsOk, Bool.and_eq_true] at hl
    have ha := (iha hl.1).2.1
    have hgood : goodHead (printProd (.mul a b)) := by
      rw [printProd_mul]; exact goodHead_append ha
    exact ⟨hgood, hgood, Or.inr (Or.inl rfl), Or.inr (Or.inl rfl)⟩
  | div a b iha ihb =>
    simp only [litsOk, Bool.and_eq_true] at hl
    have ha := (iha hl.1).2.1
    have hgood : goodHead (printProd (.div a b)) := by
      rw [printProd_div]; exact goodHead_append ha
    exact ⟨hgood, hgood, Or.inr (Or.inl rfl), Or.inr (Or.inl rfl)⟩

/-! ### C4: size and decomposition facts -/

theorem sizeA_pos (e : AExp) : 1 ≤ sizeA e := by
  cases e <;> simp [sizeA]

theorem sizeA_sumHead (e : AExp) : sizeA (sumHead e) ≤ sizeA e := by
  induction e with
  | add a b iha ihb => simp only [sumHead, sizeA]; omega
  | sub a b iha ihb => simp only [sumHead, sizeA]; omega
  | num ds => exact le_refl _
  | neg a iha => exact le_refl _
  | mul a b iha ihb => exact le_refl _
  | div a b iha ihb => exact le_refl _

theorem sizeA_prodHead (e : AExp) : sizeA (prodHead e) ≤ sizeA e := by
  induction e with
  | mul a b iha ihb => simp only [prodHead, sizeA]; omega
  | div a b iha ihb => simp only [prodHead, sizeA]; omega
  | num ds => exact le_refl _
  | neg a iha => exact le_refl _
  | add a b iha ihb => exact le_refl _
  | sub a b iha ihb => exact le_refl _

theorem sumLinks_lt_sizeA (e : AExp) : sumLinks e + 1 ≤ sizeA e := by
  induction e with
  | add a b iha ihb => have := sizeA_pos b; simp only [sumLinks, sizeA]; omega
  | sub a b iha ihb => have := sizeA_pos b; simp only [sumLinks, sizeA]; omega
  | num ds => simp [sumLinks, sizeA]
  | neg a iha => have := sizeA_pos a; simp only [sumLinks, sizeA]; omega
  | mul a b iha ihb => have := sizeA_pos a; have := sizeA_pos b
                       simp only [sumLinks, sizeA]; omega
  | div a b iha ihb => have := sizeA_pos a; have := sizeA_pos b
                       simp only [sumLinks, sizeA]; omega

theorem prodLinks_lt_sizeA (e : AExp) : prodLinks e + 1 ≤ sizeA e := by
  induction e with
  | mul a b iha ihb => have := sizeA_pos b; simp only [prodLinks, sizeA]; omega
  | div a b iha ihb => have := sizeA_pos b; simp only [prodLinks, sizeA]; omega
  | num ds => simp [prodLinks, sizeA]
  | neg a iha => have := sizeA_pos a; simp only [prodLinks, sizeA]; omega
  | add a b iha ihb => have := sizeA_pos a; have := sizeA_pos b
                       simp only [prodLinks, sizeA]; omega
  | sub a b iha ihb => have := sizeA_pos a; have := sizeA_pos b
                       simp only [prodLinks, sizeA]; omega

theorem sizeA_unCore (e : AExp) : sizeA (unCore e) + negCount e = sizeA e := by
  induction e with
  | neg a iha => simp only [unCore, negCount, sizeA]; omega
  | num ds => simp [unCore, negCount]
  | add a b iha ihb => simp [unCore, negCount]
  | sub a b iha ihb => simp [unCore, negCount]
  | mul a b iha ihb => simp [unCore, negCount]
  | div a b iha ihb => simp [unCore, negCount]

theorem printSum_decomp (e : AExp) :
    printSum e = printProd (sumHead e) ++ sumTail e := by
  induction e with
  | add a b iha ihb =>
    rw [printSum_add, iha]
    simp [sumHead, sumTail]
  | sub a b iha ihb =>
    rw [printSum_sub, iha]
    simp [sumHead, sumTail]
  | num ds => simp [sumHead, sumTail, printSum_num, printProd_num]
  | neg a iha => simp [sumHead, sumTail, printSum_neg, printProd_neg]
  | mul a b iha ihb => simp [sumHead, sumTail, printSum_mul]
  | div a b iha ihb => simp [sumHead, sumTail, printSum_div]

theorem printProd_decomp (e : AExp) :
    printProd e = printUnary (prodHead e) ++ prodTail e := by
  induction e with
  | mul a b iha ihb =>
    rw [printProd_mul, iha]
    simp [prodHead, prodTail]
  | div a b iha ihb =>
    rw [printProd_div, iha]
    simp [prodHead, prodTail]
  | num ds => simp [prodHead, prodTail, printProd_num, printUnary_num]
  | neg a iha => simp [prodHead, prodTail, printProd_neg]
  | add a b iha ihb => simp [prodHead, prodTail, printProd_add, printUnary_add]
  | sub a b iha ihb => simp [prodHead, prodTail, printProd_sub, printUnary_sub]

theorem printUnary_decomp (e : AExp) :
    printUnary e = List.replicate (negCount e) '-' ++ printAtom (unCore e) := by
  induction e with
  | neg a iha =>
    rw [printUnary_neg, iha]
    simp [negCount, unCore, List.replicate_succ]
  | num ds => simp [negCount, unCore, printUnary_num, printAtom_num]
  | add a b iha ihb => simp [negCount, unCore, printUnary_add]
  | sub a b iha ihb => simp [negCount, unCore, printUnary_sub]
  | mul a b iha ihb => simp [negCount, unCore, printUnary_mul]
  | div a b iha ihb => simp [negCount, unCore, printUnary_div]

theorem sumGraft_toExpr {α : Type} (ofNat : Nat → α) (e : AExp) :
    sumGraft ofNat (toExpr ofNat (sumHead e)) e = toExpr ofNat e := by
  induction e with
  | add a b iha ihb => simp only [sumGraft, sumHead, toExpr] at iha ⊢; rw [iha]
  | sub a b iha ihb => simp only [sumGraft, sumHead, toExpr] at iha ⊢; rw [iha]
  | num ds => rfl
  | neg a iha => rfl
  | mul a b iha ihb => rfl
  | div a b iha ihb => rfl

theorem prodGraft_toExpr {α : Type} (ofNat : Nat → α) (e : AExp) :
    prodGraft ofNat (toExpr ofNat (prodHead e)) e = toExpr ofNat e := by
  induction e with
  | mul a b iha ihb => simp only [prodGraft, prodHead, toExpr] at iha ⊢; rw [iha]
  | div a b iha ihb => simp only [prodGraft, prodHead, toExpr] at iha ⊢; rw [iha]
  | num ds => rfl
  | neg a iha => rfl
  | add a b iha ihb => rfl
  | sub a b iha ihb => rfl

theorem negs_fold {α : Type} (ofNat : Nat → α) (e : AExp) :
    (List.replicate (negCount e) ()).foldr (fun _ r => Expr.Neg r)
      (toExpr ofNat (unCore e)) = toExpr ofNat e := by
  induction e with
  | neg a iha =>
    simp only [negCount, unCore, List.replicate_succ, List.foldr_cons, toExpr]
    rw [iha]
  | num ds => rfl
  | add a b iha ihb => rfl
  | sub a b iha ihb => rfl
  | mul a b iha ihb => rfl
  | div a b iha ihb => rfl

theorem sumTail_shape (e : AExp) :
    sumTail e = [] ∨ ∃ t, sumTail e = '+' :: t ∨ sumTail e = '-' :: t := by
  induction e with
  | add a b iha =>
    rcases iha with h | ⟨t, h | h⟩
    · exact Or.inr ⟨printProd b, Or.inl (by simp [sumTail, h])⟩
    · exact Or.inr ⟨t ++ '+' :: printProd b, Or.inl (by simp [sumTail, h])⟩
    · exact Or.inr ⟨t ++ '+' :: printProd b, Or.inr (by simp [sumTail, h])⟩
  | sub a b iha =>
    rcases iha with h | ⟨t, h | h⟩
    · exact Or.inr ⟨printProd b, Or.inr (by simp [sumTail, h])⟩
    · exact Or.inr ⟨t ++ '-' :: printProd b, Or.inl (by simp [sumTail, h])⟩
    · exact Or.inr ⟨t ++ '-' :: printProd b, Or.inr (by simp [sumTail, h])⟩
  | num ds => exact Or.inl rfl
  | neg a iha => exact Or.inl rfl
  | mul a b iha ihb => exact Or.inl rfl
  | div a b iha ihb => exact Or.inl rfl

theorem prodTail_shape (e : AExp) :
    prodTail e = [] ∨ ∃ t, prodTail e = '*' :: t ∨ prodTail e = '/' :: t := by
  induction e with
  | mul a b iha =>
    rcases iha with h | ⟨t, h | h⟩
    · exact Or.inr ⟨printUnary b, Or.inl (by simp [prodTail, h])⟩
    · exact Or.inr ⟨t ++ '*' :: printUnary b, Or.inl (by simp [prodTail, h])⟩
    · exact Or.inr ⟨t ++ '*' :: printUnary b, Or.inr (by simp [prodTail, h])⟩
  | div a b iha =>
    rcases iha with h | ⟨t, h | h⟩
    · exact Or.inr ⟨printUnary b, Or.inr (by simp [prodTail, h])⟩
    · exact Or.inr ⟨t ++ '/' :: printUnary b, Or.inl (by simp [prodTail, h])⟩
    · exact Or.inr ⟨t ++ '/' :: printUnary b, Or.inr (by simp [prodTail, h])⟩
  | num ds => exact Or.inl rfl
  | neg a iha => exact Or.inl rfl
  | add a b iha ihb => exact Or.inl rfl
  | sub a b iha ihb => exact Or.inl rfl

theorem printLevels_len (e : AExp) :
    (printSum e).length ≤ (printProd e).length
    ∧ (printProd e).length ≤ (printUnary e).length
    ∧ (printUnary e).length ≤ (printAtom e).length := by
  cases e with
  | num ds => exact ⟨le_refl _, le_refl _, le_refl _⟩
  | neg a =>
    refine ⟨le_refl _, le_refl _, ?_⟩
    rw [printAtom_paren _ (by simp [extraA]), printSum_neg]
    simp only [List.length_cons, List.length_append, List.length_singleton]
    omega
  | add a b =>
    rw [printProd_add, printUnary_add, printAtom_paren _ (by simp [extraA])]
    refine ⟨?_, le_refl _, le_refl _⟩
    simp only [List.length_cons, List.length_append, List.length_singleton]
    omega
  | sub a b =>
    rw [printProd_sub, printUnary_sub, printAtom_paren _ (by simp [extraA])]
    refine ⟨?_, le_refl _, le_refl _⟩
    simp only [List.length_cons, List.length_append, List.length_singleton]
    omega
  | mul a b =>
    rw [printUnary_mul, printAtom_paren _ (by simp [extraA])]
    refine ⟨le_of_eq (by rw [printSum_mul]), ?_, le_refl _⟩
    rw [printSum_mul]
    simp only [List.length_cons, List.length_append, List.length_singleton]
    omega
  | div a b =>
    rw [printUnary_div, printAtom_paren _ (by simp [extraA])]
    refine ⟨le_of_eq (by rw [printSum_div]), ?_, le_refl _⟩
    rw [printSum_div]
    simp only [List.length_cons, List.length_append, List.length_singleton]
    omega

theorem sizeA_le_len (e : AExp) (hl : litsOk e = true) :
    sizeA e ≤ (printSum e).length := by
  induction e with
  | num ds =>
    cases ds with
    | nil => exact absurd hl (by simp [litsOk, numLitB])
    | cons c tl => simp [sizeA, printSum_num]
  | neg a iha =>
    have := iha (by simpa [litsOk] using hl)
    rw [printSum_neg, printUnary_neg]
    have hm := (printLevels_len a).1
    have hm2 := (printLevels_len a).2.1
    simp only [sizeA, List.length_cons]
    have : printSum (AExp.neg a) = printUnary (AExp.neg a) := printSum_neg a
    omega
  | add a b iha ihb =>
    simp only [litsOk, Bool.and_eq_true] at hl
    have ha := iha hl.1
    have hb := ihb hl.2
    have hmb := (printLevels_len b).1
    rw [printSum_add]
    simp only [sizeA, List.length_append, List.length_cons]
    omega
  | sub a b iha ihb =>
    simp only [litsOk, Bool.and_eq_true] at hl
    have ha := iha hl.1
    have hb := ihb hl.2
    have hmb := (printLevels_len b).1
    rw [printSum_sub]
    simp only [sizeA, List.length_append, List.length_cons]
    omega
  | mul a b iha ihb =>
    simp only [litsOk, Bool.and_eq_true] at hl
    have ha := iha hl.1
    have hb := ihb hl.2
    have hma := (printLevels_len a).1
    have hmb := (printLevels_len b).1
    have hmb2 := (printLevels_len b).2.1
    rw [printSum_mul, printProd_mul]
    simp only [sizeA, List.length_append, List.length_cons]
    omega
  | div a b iha ihb =>
    simp only [litsOk, Bool.and_eq_true] at hl
    have ha := iha hl.1
    have hb := ihb hl.2
    have hma := (printLevels_len a).1
    have hmb := (printLevels_len b).1
    have hmb2 := (printLevels_len b).2.1
    rw [printSum_div, printProd_div]
    simp only [sizeA, List.length_append, List.length_cons]
    omega

/-! ### C4: the parser pieces at fixed expression fuel -/

/-- The atom parser with sub-expression fuel `g` (as built inside
`pExpr (g+1)`). -/
def AtomP {α : Type} (ofNat : Nat → α) (g : Nat) : P (Expr α) :=
  mkAtom ofNat (fun s => pExpr ofNat g s) (g + 1)

/-- The unary parser over `AtomP g`, with its own repetition fuel. -/
def UnaryP {α : Type} (ofNat : Nat → α) (g lf : Nat) : P (Expr α) :=
  mkUnary (AtomP ofNat g) lf

/-- The product parser as built inside `pExpr (g+1)`. -/
def ProdP {α : Type} (ofNat : Nat → α) (g : Nat) : P (Expr α) :=
  mkProduct (UnaryP ofNat g (g + 1)) (g + 1)

/-- The sum parser as built inside `pExpr (g+1)`. -/
def SumP {α : Type} (ofNat : Nat → α) (g : Nat) : P (Expr α) :=
  mkSum (ProdP ofNat g) (g + 1)

theorem pExpr_succ {α : Type} (ofNat : Nat → α) (g : Nat) :
    pExpr ofNat (g + 1) = SumP ofNat g := rfl

/-! ### C4: operational facts about the combinators -/

theorem pOr_some {β : Type} {p q : P β} {s : List Char} {vr : β × List Char}
    (h : p s = some vr) : pOr p q s = some vr := by
  simp [pOr, h]

theorem pOr_none {β : Type} {p q : P β} {s : List Char}
    (h : p s = none) : pOr p q s = q s := by
  simp [pOr, h]

theorem stopAtom_dropWhile {r : List Char} (h : stopAtom r) :
    r.dropWhile Char.isWhitespace = r := by
  cases r with
  | nil => rfl
  | cons c t => simp [List.dropWhile_cons, h.2]

theorem pJust_eq (c : Char) (t : List Char) : pJust c (c :: t) = some ((), t) := by
  simp [pJust]

theorem pJust_ne {c d : Char} (t : List Char) (h : d ≠ c) : pJust c (d :: t) = none := by
  simp [pJust, h]

theorem padJust_eq {c : Char} {t : List Char} (hc : c.isWhitespace = false)
    (ht : t.dropWhile Char.isWhitespace = t) :
    pPadded (pJust c) (c :: t) = some ((), t) := by
  simp [pPadded, List.dropWhile_cons, hc, pJust, ht]

theorem padJust_ne {c d : Char} {t : List Char} (hd : d ≠ c) (hw : d.isWhitespace = false) :
    pPadded (pJust c) (d :: t) = none := by
  simp [pPadded, List.dropWhile_cons, hw, pJust, hd]

theorem padJust_nil (c : Char) : pPadded (pJust c) [] = none := rfl

theorem mkInt_digits {α : Type} (ofNat : Nat → α) {ds rest : List Char}
    (h : numLitB ds = true) (hr : stopAtom rest) :
    mkInt ofNat (ds ++ rest) = some (.Num (ofNat (digitsVal ds)), rest) := by
  cases ds with
  | nil => exact absurd h (by simp [numLitB])
  | cons c tl =>
    simp only [numLitB, Bool.and_eq_true, Bool.or_eq_true, Bool.not_eq_true',
      List.all_eq_true, beq_iff_eq, List.isEmpty_iff, decide_eq_true_eq] at h
    obtain ⟨⟨hc, htl⟩, hz⟩ := h
    have hfront : List.dropWhile Char.isWhitespace (c :: (tl ++ rest)) = c :: (tl ++ rest) := by
      simp [List.dropWhile_cons, digit_not_ws hc]
    have hback := stopAtom_dropWhile hr
    by_cases h0 : c = '0'
    · subst h0
      have htl0 : tl = [] := by
        rcases hz with h | h
        · exact absurd h (by decide)
        · exact h
      subst htl0
      simp [mkInt, pPadded, pMap, pIntRaw, hfront, hback, digitsVal, digitVal]
    · have htd := takeDrop_digits (fun d hd => htl d hd) hr
      simp [mkInt, pPadded, pMap, pIntRaw, hfront, hback, hc, h0, htd.1, htd.2]

theorem mkInt_fail {α : Type} (ofNat : Nat → α) {c : Char} {t : List Char}
    (hd : c.isDigit = false) (hw : c.isWhitespace = false) :
    mkInt ofNat (c :: t) = none := by
  have hz : ¬(c = '0') := fun h => by subst h; exact absurd hd (by decide)
  simp [mkInt, pPadded, pMap, pIntRaw, List.dropWhile_cons, hw, hd, hz]

theorem addOp_plus {α : Type} (t : List Char) (ht : t.dropWhile Char.isWhitespace = t) :
    (addOp : P (Expr α → Expr α → Expr α)) ('+' :: t) = some (Expr.Add, t) := by
  simp [addOp, pOr, pMap, padJust_eq (show ('+').isWhitespace = false by decide) ht]

theorem addOp_minus {α : Type} (t : List Char) (ht : t.dropWhile Char.isWhitespace = t) :
    (addOp : P (Expr α → Expr α → Expr α)) ('-' :: t) = some (Expr.Sub, t) := by
  simp [addOp, pOr, pMap, padJust_ne (show '-' ≠ '+' by decide) (by decide),
    padJust_eq (show ('-').isWhitespace = false by decide) ht]

theorem mulOp_star {α : Type} (t : List Char) (ht : t.dropWhile Char.isWhitespace = t) :
    (mulOp : P (Expr α → Expr α → Expr α)) ('*' :: t) = some (Expr.Mul, t) := by
  simp [mulOp, pOr, pMap, padJust_eq (show ('*').isWhitespace = false by decide) ht]

theorem mulOp_slash {α : Type} (t : List Char) (ht : t.dropWhile Char.isWhitespace = t) :
    (mulOp : P (Expr α → Expr α → Expr α)) ('/' :: t) = some (Expr.Div, t) := by
  simp [mulOp, pOr, pMap, padJust_ne (show '/' ≠ '*' by decide) (by decide),
    padJust_eq (show ('/').isWhitespace = false by decide) ht]

theorem addOp_stop {α : Type} {r : List Char} (h : stopSum r) :
    (addOp : P (Expr α → Expr α → Expr α)) r = none := by
  cases r with
  | nil => rfl
  | cons c t =>
    simp [addOp, pOr, pMap, padJust_ne h.2.2.2.2.1 h.2.1, padJust_ne h.2.2.2.2.2 h.2.1]

theorem mulOp_stop {α : Type} {r : List Char} (h : stopProd r) :
    (mulOp : P (Expr α → Expr α → Expr α)) r = none := by
  cases r with
  | nil => rfl
  | cons c t =>
    simp [mulOp, pOr, pMap, padJust_ne h.2.2.1 h.2.1, padJust_ne h.2.2.2 h.2.1]

theorem chainlLoop_stop {β : Type} {op : P (β → β → β)} {item : P β} {m : Nat} {acc : β}
    {s : List Char} (h : op s = none) :
    chainlLoop op item (m + 1) acc s = some (acc, s) := by
  simp [chainlLoop, h]

theorem mkChain_start {β : Type} {op : P (β → β → β)} {item : P β} {lf : Nat}
    {s s1 : List Char} {v : β} (h : item s = some (v, s1)) :
    mkChain op item lf s = chainlLoop op item lf v s1 := by
  simp [mkChain, h]

/-- An atom rendering starts with a digit or `(`. -/
theorem printAtom_head (e : AExp) (hl : litsOk e = true) :
    ∃ c t, printAtom e = c :: t ∧ (c.isDigit = true ∨ c = '(') := by
  cases e with
  | num ds =>
    cases ds with
    | nil => exact absurd hl (by simp [litsOk, numLitB])
    | cons c tl =>
      refine ⟨c, tl, rfl, Or.inl ?_⟩
      simp only [litsOk, numLitB, Bool.and_eq_true] at hl
      exact hl.1.1
  | neg a => exact ⟨'(', _, rfl, Or.inr rfl⟩
  | add a b => exact ⟨'(', _, rfl, Or.inr rfl⟩
  | sub a b => exact ⟨'(', _, rfl, Or.inr rfl⟩
  | mul a b => exact ⟨'(', _, rfl, Or.inr rfl⟩
  | div a b => exact ⟨'(', _, rfl, Or.inr rfl⟩

theorem pRepMinus_stop {m : Nat} {c : Char} {t : List Char}
    (hne : c ≠ '-') (hw : c.isWhitespace = false) :
    pRep (pPadded (pJust '-')) (m + 1) (c :: t) = some ([], c :: t) := by
  simp [pRep, padJust_ne hne hw]

theorem mkUnary_step {α : Type} {item : P (Expr α)} {lf : Nat} {t : List Char}
    (ht : t.dropWhile Char.isWhitespace = t) :
    mkUnary item (lf + 1) ('-' :: t)
      = match mkUnary item lf t with
        | none => none
        | some (v, r) => some (.Neg v, r) := by
  have hminus := padJust_eq (show ('-').isWhitespace = false by decide) ht
  cases hr : pRep (pPadded (pJust '-')) lf t with
  | none => simp [mkUnary, pRep, hminus, hr]
  | some msr =>
    obtain ⟨ms, s1⟩ := msr
    cases ha : item s1 with
    | none => simp [mkUnary, pRep, hminus, hr, ha]
    | some vr =>
      obtain ⟨v, r⟩ := vr
      simp [mkUnary, pRep, hminus, hr, ha]

theorem mkUnary_noMinus {α : Type} {item : P (Expr α)} {m : Nat} {c : Char} {t : List Char}
    (hne : c ≠ '-') (hw : c.isWhitespace = false) :
    mkUnary item (m + 1) (c :: t) = item (c :: t) := by
  cases ha : item (c :: t) with
  | none => simp [mkUnary, pRepMinus_stop hne hw, ha]
  | some vr =>
    obtain ⟨v, r⟩ := vr
    simp [mkUnary, pRepMinus_stop hne hw, ha]

theorem AtomP_num {α : Type} (ofNat : Nat → α) {g : Nat} {ds rest : List Char}
    (h : numLitB ds = true) (hr : stopAtom rest) :
    AtomP ofNat g (ds ++ rest) = some (.Num (ofNat (digitsVal ds)), rest) :=
  pOr_some (pOr_some (pOr_some (mkInt_digits ofNat h hr)))

theorem AtomP_paren {α : Type} (ofNat : Nat → α) {g : Nat} {inner rest : List Char}
    {v : Expr α} (hS : pExpr ofNat g (inner ++ ')' :: rest) = some (v, ')' :: rest)) :
    AtomP ofNat g ('(' :: (inner ++ ')' :: rest)) = some (v, rest) := by
  have hint : mkInt ofNat ('(' :: (inner ++ ')' :: rest)) = none :=
    mkInt_fail ofNat (by decide) (by decide)
  have hdelim : pDelim (fun s => pExpr ofNat g s) '(' ')' ('(' :: (inner ++ ')' :: rest))
      = some (v, rest) := by
    simp [pDelim, pIgnoreThen, pThenIgnore, pJust_eq, hS]
  exact pOr_some (pOr_some (by rw [pOr_none hint]; exact hdelim))

/-! ### C4: correctness statements for each precedence level -/

/-- Atom-level correctness of the parser on the printed form of `e`. -/
def stmtA {α : Type} (ofNat : Nat → α) (e : AExp) : Prop :=
  ∀ (g : Nat) (rest : List Char), sizeA e + extraA e ≤ g + 1 → stopAtom rest →
    AtomP ofNat g (printAtom e ++ rest) = some (toExpr ofNat e, rest)

/-- Unary-level correctness. -/
def stmtU {α : Type} (ofNat : Nat → α) (e : AExp) : Prop :=
  ∀ (g lf : Nat) (rest : List Char), sizeA e + extraU e ≤ g + 1 → negCount e < lf →
    stopAtom rest →
    UnaryP ofNat g lf (printUnary e ++ rest) = some (toExpr ofNat e, rest)

/-- Product-level correctness. -/
def stmtP {α : Type} (ofNat : Nat → α) (e : AExp) : Prop :=
  ∀ (g : Nat) (rest : List Char), sizeA e + extraP e ≤ g + 1 → stopProd rest →
    ProdP ofNat g (printProd e ++ rest) = some (toExpr ofNat e, rest)

/-- Sum-level correctness. -/
def stmtS {α : Type} (ofNat : Nat → α) (e : AExp) : Prop :=
  ∀ (g : Nat) (rest : List Char), sizeA e ≤ g + 1 → stopSum rest →
    SumP ofNat g (printSum e ++ rest) = some (toExpr ofNat e, rest)

/-- The sum-chain fold loop consumes the tail of a sum chain, grafting the
parsed items onto the accumulator. -/
def stmtSSeg {α : Type} (ofNat : Nat → α) (e : AExp) : Prop :=
  ∀ (g lf : Nat) (acc : Expr α) (Y : List Char), sizeA e ≤ g + 1 → sumLinks e < lf →
    stopProd Y →
    chainlLoop addOp (ProdP ofNat g) lf acc (sumTail e ++ Y)
      = chainlLoop addOp (ProdP ofNat g) (lf - sumLinks e) (sumGraft ofNat acc e) Y

/-- The product-chain fold loop consumes the tail of a product chain. -/
def stmtPSeg {α : Type} (ofNat : Nat → α) (e : AExp) : Prop :=
  ∀ (g lf : Nat) (acc : Expr α) (Y : List Char), sizeA e ≤ g + 1 → prodLinks e < lf →
    stopAtom Y →
    chainlLoop mulOp (UnaryP ofNat g (g + 1)) lf acc (prodTail e ++ Y)
      = chainlLoop mulOp (UnaryP ofNat g (g + 1)) (lf - prodLinks e)
          (prodGraft ofNat acc e) Y

/-! ### C4: small arithmetic facts about the measures -/

theorem negCount_lt_sizeA (e : AExp) : negCount e + 1 ≤ sizeA e := by
  have h1 := sizeA_unCore e
  have h2 := sizeA_pos (unCore e)
  omega

theorem extraU_le_one (e : AExp) : extraU e ≤ 1 := by
  cases e <;> simp [extraU]

theorem extraP_le_one (e : AExp) : extraP e ≤ 1 := by
  cases e <;> simp [extraP]

theorem extraP_sumHead (e : AExp) : extraP (sumHead e) = 0 := by
  induction e with
  | add a b iha ihb => simpa [sumHead] using iha
  | sub a b iha ihb => simpa [sumHead] using iha
  | num ds => rfl
  | neg a iha => rfl
  | mul a b iha ihb => rfl
  | div a b iha ihb => rfl

theorem stopProd_sumTail (e : AExp) {rest : List Char} (h : stopSum rest) :
    stopProd (sumTail e ++ rest) := by
  rcases sumTail_shape e with ht | ⟨t, ht | ht⟩
  · rw [ht]; exact stopProd_of_stopSum h
  · rw [ht]; exact ⟨by decide, by decide, by decide, by decide⟩
  · rw [ht]; exact ⟨by decide, by decide, by decide, by decide⟩

theorem stopAtom_prodTail (e : AExp) {rest : List Char} (h : stopProd rest) :
    stopAtom (prodTail e ++ rest) := by
  rcases prodTail_shape e with ht | ⟨t, ht | ht⟩
  · rw [ht]; exact stopAtom_of_stopProd h
  · rw [ht]; exact ⟨by decide, by decide⟩
  · rw [ht]; exact ⟨by decide, by decide⟩

/-! ### C4: transfers between adjacent levels -/

theorem stmtU_of_stmtA {α : Type} (ofNat : Nat → α) (e : AExp) (hl : litsOk e = true)
    (hnc : negCount e = 0) (hpu : printUnary e = printAtom e) (hex : extraU e = extraA e)
    (hA : stmtA ofNat e) : stmtU ofNat e := by
  intro g lf rest hsz hlf hr
  obtain ⟨m, rfl⟩ : ∃ m, lf = m + 1 := ⟨lf - 1, by omega⟩
  obtain ⟨c, t, hct, hcd⟩ := printAtom_head e hl
  have hne : c ≠ '-' := by
    rcases hcd with hd | rfl
    · exact fun hh => absurd hd (by rw [hh]; decide)
    · decide
  have hw : c.isWhitespace = false := by
    rcases hcd with hd | rfl
    · exact digit_not_ws hd
    · decide
  have hA' := hA g rest (by omega) hr
  rw [hct, List.cons_append] at hA'
  rw [hpu, hct, List.cons_append, UnaryP, mkUnary_noMinus hne hw]
  exact hA'

theorem stmtP_of_stmtU {α : Type} (ofNat : Nat → α) (e : AExp)
    (hpp : printProd e = printUnary e) (hex : extraP e = extraU e)
    (hU : stmtU ofNat e) : stmtP ofNat e := by
  intro g rest hsz hstop
  have hnc := negCount_lt_sizeA e
  have hu := hU g (g + 1) rest (by omega) (by omega) (stopAtom_of_stopProd hstop)
  rw [ProdP, mkProduct, hpp, mkChain_start hu, chainlLoop_stop (mulOp_stop hstop)]

theorem stmtS_of_stmtP {α : Type} (ofNat : Nat → α) (e : AExp)
    (hsp : printSum e = printProd e) (hex : extraP e = 0)
    (hP : stmtP ofNat e) : stmtS ofNat e := by
  intro g rest hsz hstop
  have hp := hP g rest (by omega) (stopProd_of_stopSum hstop)
  rw [SumP, mkSum, hsp, mkChain_start hp, chainlLoop_stop (addOp_stop hstop)]

theorem stmtA_of_stmtS {α : Type} (ofNat : Nat → α) (e : AExp)
    (hnn : extraA e = 1) (hS : stmtS ofNat e) : stmtA ofNat e := by
  intro g rest hsz hr
  have h1 : sizeA e ≤ g := by omega
  have h2 : 1 ≤ g := le_trans (sizeA_pos e) h1
  obtain ⟨g2, rfl⟩ : ∃ g2, g = g2 + 1 := ⟨g - 1, by omega⟩
  rw [printAtom_paren e hnn]
  have heq : ('(' :: (printSum e ++ [')'])) ++ rest = '(' :: (printSum e ++ ')' :: rest) := by
    simp
  rw [heq]
  refine AtomP_paren ofNat ?_
  rw [pExpr_succ]
  exact hS g2 (')' :: rest) (by omega)
    ⟨by decide, by decide, by decide, by decide, by decide, by decide⟩

theorem stmtSSeg_trivial {α : Type} (ofNat : Nat → α) (e : AExp) (ht : sumTail e = [])
    (hg : ∀ acc : Expr α, sumGraft ofNat acc e = acc) (hk : sumLinks e = 0) :
    stmtSSeg ofNat e := by
  intro g lf acc Y _ _ _
  rw [ht, hg, hk]
  simp

theorem stmtPSeg_trivial {α : Type} (ofNat : Nat → α) (e : AExp) (ht : prodTail e = [])
    (hg : ∀ acc : Expr α, prodGraft ofNat acc e = acc) (hk : prodLinks e = 0) :
    stmtPSeg ofNat e := by
  intro g lf acc Y _ _ _
  rw [ht, hg, hk]
  simp

/-- The grand induction: at every precedence level, the parser built by
`fn parser()` maps the canonical rendering of a well-formed arithmetic
expression (followed by any legal continuation) to exactly the expected
`Expr` tree. -/
theorem parserLevels {α : Type} (ofNat : Nat → α) (e : AExp) (hl : litsOk e = true) :
    stmtA ofNat e ∧ stmtU ofNat e ∧ stmtP ofNat e ∧ stmtS ofNat e
    ∧ stmtSSeg ofNat e ∧ stmtPSeg ofNat e
    ∧ stmtP ofNat (sumHead e) ∧ stmtU ofNat (prodHead e) := by
  induction e with
  | num ds =>
    have hA : stmtA ofNat (.num ds) := by
      intro g rest hsz hr
      rw [printAtom_num]
      exact AtomP_num ofNat (by simpa [litsOk] using hl) hr
    have hU := stmtU_of_stmtA ofNat (.num ds) hl rfl rfl rfl hA
    have hP := stmtP_of_stmtU ofNat (.num ds) rfl rfl hU
    have hS := stmtS_of_stmtP ofNat (.num ds) rfl rfl hP
    exact ⟨hA, hU, hP, hS, stmtSSeg_trivial ofNat (.num ds) rfl (fun _ => rfl) rfl,
      stmtPSeg_trivial ofNat (.num ds) rfl (fun _ => rfl) rfl, hP, hU⟩
  | neg a iha =>
    have hla : litsOk a = true := by simpa [litsOk] using hl
    obtain ⟨haA, haU, haP, haS, haSS, haPS, haPH, haUH⟩ := iha hla
    have hU : stmtU ofNat (.neg a) := by
      intro g lf rest hsz hlf hr
      have e1 : sizeA (AExp.neg a) = sizeA a + 1 := rfl
      have e2 : extraU (AExp.neg a) = 0 := rfl
      have e3 : negCount (AExp.neg a) = negCount a + 1 := rfl
      have e4 := extraU_le_one a
      obtain ⟨m, rfl⟩ : ∃ m, lf = m + 1 := ⟨lf - 1, by omega⟩
      rw [printUnary_neg, List.cons_append, UnaryP,
        mkUnary_step (goodHead_dropWhile_ws (goodHead_append (printHeads a hla).2.2.1))]
      have hu := haU g m rest (by omega) (by omega) hr
      rw [UnaryP] at hu
      rw [hu]
      rfl
    have hP := stmtP_of_stmtU ofNat (.neg a) rfl rfl hU
    have hS := stmtS_of_stmtP ofNat (.neg a) rfl rfl hP
    have hA := stmtA_of_stmtS ofNat (.neg a) rfl hS
    exact ⟨hA, hU, hP, hS, stmtSSeg_trivial ofNat (.neg a) rfl (fun _ => rfl) rfl,
      stmtPSeg_trivial ofNat (.neg a) rfl (fun _ => rfl) rfl, hP, hU⟩
  | add a b iha ihb =>
    have hla : litsOk a = true := by
      have := hl
      simp only [litsOk, Bool.and_eq_true] at this
      exact this.1
    have hlb : litsOk b = true := by
      have := hl
      simp only [litsOk, Bool.and_eq_true] at this
      exact this.2
    obtain ⟨haA, haU, haP, haS, haSS, haPS, haPH, haUH⟩ := iha hla
    obtain ⟨hbA, hbU, hbP, hbS, hbSS, hbPS, hbPH, hbUH⟩ := ihb hlb
    have hSS : stmtSSeg ofNat (.add a b) := by
      intro g lf acc Y hsz hlinks hstop
      have e1 : sumLinks (AExp.add a b) = sumLinks a + 1 := rfl
      have e2 : sizeA (AExp.add a b) = sizeA a + sizeA b + 1 := rfl
      have hsb := sizeA_pos b
      have hsa := sizeA_pos a
      have hxb := extraP_le_one b
      have ht : sumTail (AExp.add a b) ++ Y = sumTail a ++ ('+' :: (printProd b ++ Y)) := by
        simp [sumTail]
      rw [ht, haSS g lf acc ('+' :: (printProd b ++ Y)) (by omega) (by omega)
        ⟨by decide, by decide, by decide, by decide⟩]
      obtain ⟨m, hm⟩ : ∃ m, lf - sumLinks a = m + 1 := ⟨lf - sumLinks a - 1, by omega⟩
      rw [hm]
      have hop : (addOp : P (Expr α → Expr α → Expr α)) ('+' :: (printProd b ++ Y))
          = some (Expr.Add, printProd b ++ Y) :=
        addOp_plus (printProd b ++ Y)
          (goodHead_dropWhile_ws (goodHead_append (printHeads b hlb).2.1))
      have hitem := hbP g Y (by omega) hstop
      simp only [chainlLoop, hop, hitem]
      have e3 : sumGraft ofNat acc (AExp.add a b)
          = .Add (sumGraft ofNat acc a) (toExpr ofNat b) := rfl
      have hm2 : lf - sumLinks (AExp.add a b) = m := by omega
      rw [e3, hm2]
    have hS : stmtS ofNat (.add a b) := by
      intro g rest hsz hstop
      have e2 : sizeA (AExp.add a b) = sizeA a + sizeA b + 1 := rfl
      have hsh := sizeA_sumHead a
      have hxh := extraP_sumHead a
      have hsb := sizeA_pos b
      have hlk := sumLinks_lt_sizeA (AExp.add a b)
      rw [SumP, mkSum, printSum_decomp]
      have hh : sumHead (AExp.add a b) = sumHead a := rfl
      rw [hh, List.append_assoc]
      have hitem := haPH g (sumTail (AExp.add a b) ++ rest) (by omega)
        (stopProd_sumTail _ hstop)
      rw [mkChain_start hitem]
      rw [hSS g (g + 1) (toExpr ofNat (sumHead a)) rest (by omega) (by omega)
        (stopProd_of_stopSum hstop)]
      have hg : sumGraft ofNat (toExpr ofNat (sumHead a)) (AExp.add a b)
          = toExpr ofNat (AExp.add a b) := by
        have := sumGraft_toExpr ofNat (AExp.add a b)
        rwa [hh] at this
      rw [hg]
      obtain ⟨m, hm⟩ : ∃ m, g + 1 - sumLinks (AExp.add a b) = m + 1 :=
        ⟨g - sumLinks (AExp.add a b), by omega⟩
      rw [hm, chainlLoop_stop (addOp_stop hstop)]
    have hA := stmtA_of_stmtS ofNat (.add a b) rfl hS
    have hU := stmtU_of_stmtA ofNat (.add a b) hl rfl rfl rfl hA
    have hP := stmtP_of_stmtU ofNat (.add a b) rfl rfl hU
    exact ⟨hA, hU, hP, hS, hSS, stmtPSeg_trivial ofNat (.add a b) rfl (fun _ => rfl) rfl,
      haPH, hU⟩
  | sub a b iha ihb =>
    have hla : litsOk a = true := by
      have := hl
      simp only [litsOk, Bool.and_eq_true] at this
      exact this.1
    have hlb : litsOk b = true := by
      have := hl
      simp only [litsOk, Bool.and_eq_true] at this
      exact this.2
    obtain ⟨haA, haU, haP, haS, haSS, haPS, haPH, haUH⟩ := iha hla
    obtain ⟨hbA, hbU, hbP, hbS, hbSS, hbPS, hbPH, hbUH⟩ := ihb hlb
    have hSS : stmtSSeg ofNat (.sub a b) := by
      intro g lf acc Y hsz hlinks hstop
      have e1 : sumLinks (AExp.sub a b) = sumLinks a + 1 := rfl
      have e2 : sizeA (AExp.sub a b) = sizeA a + sizeA b + 1 := rfl
      have hsb := sizeA_pos b
      have hsa := sizeA_pos a
      have hxb := extraP_le_one b
      have ht : sumTail (AExp.sub a b) ++ Y = sumTail a ++ ('-' :: (printProd b ++ Y)) := by
        simp [sumTail]
      rw [ht, haSS g lf acc ('-' :: (printProd b ++ Y)) (by omega) (by omega)
        ⟨by decide, by decide, by decide, by decide⟩]
      obtain ⟨m, hm⟩ : ∃ m, lf - sumLinks a = m + 1 := ⟨lf - sumLinks a - 1, by omega⟩
      rw [hm]
      have hop : (addOp : P (Expr α → Expr α → Expr α)) ('-' :: (printProd b ++ Y))
          = some (Expr.Sub, printProd b ++ Y) :=
        addOp_minus (printProd b ++ Y)
          (goodHead_dropWhile_ws (goodHead_append (printHeads b hlb).2.1))
      have hitem := hbP g Y (by omega) hstop
      simp only [chainlLoop, hop, hitem]
      have e3 : sumGraft ofNat acc (AExp.sub a b)
          = .Sub (sumGraft ofNat acc a) (toExpr ofNat b) := rfl
      have hm2 : lf - sumLinks (AExp.sub a b) = m := by omega
      rw [e3, hm2]
    have hS : stmtS ofNat (.sub a b) := by
      intro g rest hsz hstop
      have e2 : sizeA (AExp.sub a b) = sizeA a + sizeA b + 1 := rfl
      have hsh := sizeA_sumHead a
      have hxh := extraP_sumHead a
      have hsb := sizeA_pos b
      have hlk := sumLinks_lt_sizeA (AExp.sub a b)
      rw [SumP, mkSum, printSum_decomp]
      have hh : sumHead (AExp.sub a b) = sumHead a := rfl
      rw [hh, List.append_assoc]
      have hitem := haPH g (sumTail (AExp.sub a b) ++ rest) (by omega)
        (stopProd_sumTail _ hstop)
      rw [mkChain_start hitem]
      rw [hSS g (g + 1) (toExpr ofNat (sumHead a)) rest (by omega) (by omega)
        (stopProd_of_stopSum hstop)]
      have hg : sumGraft ofNat (toExpr ofNat (sumHead a)) (AExp.sub a b)
          = toExpr ofNat (AExp.sub a b) := by
        have := sumGraft_toExpr ofNat (AExp.sub a b)
        rwa [hh] at this
      rw [hg]
      obtain ⟨m, hm⟩ : ∃ m, g + 1 - sumLinks (AExp.sub a b) = m + 1 :=
        ⟨g - sumLinks (AExp.sub a b), by omega⟩
      rw [hm, chainlLoop_stop (addOp_stop hstop)]
    have hA := stmtA_of_stmtS ofNat (.sub a b) rfl hS
    have hU := stmtU_of_stmtA ofNat (.sub a b) hl rfl rfl rfl hA
    have hP := stmtP_of_stmtU ofNat (.sub a b) rfl rfl hU
    exact ⟨hA, hU, hP, hS, hSS, stmtPSeg_trivial ofNat (.sub a b) rfl (fun _ => rfl) rfl,
      haPH, hU⟩
  | mul a b iha ihb =>
    have hla : litsOk a = true := by
      have := hl
      simp only [litsOk, Bool.and_eq_true] at this
      exact this.1
    have hlb : litsOk b = true := by
      have := hl
      simp only [litsOk, Bool.and_eq_true] at this
      exact this.2
    obtain ⟨haA, haU, haP, haS, haSS, haPS, haPH, haUH⟩ := iha hla
    obtain ⟨hbA, hbU, hbP, hbS, hbSS, hbPS, hbPH, hbUH⟩ := ihb hlb
    have hPS : stmtPSeg ofNat (.mul a b) := by
      intro g lf acc Y hsz hlinks hstop
      have e1 : prodLinks (AExp.mul a b) = prodLinks a + 1 := rfl
      have e2 : sizeA (AExp.mul a b) = sizeA a + sizeA b + 1 := rfl
      have hsb := sizeA_pos b
      have hsa := sizeA_pos a
      have hxb := extraU_le_one b
      have hnb := negCount_lt_sizeA b
      have ht : prodTail (AExp.mul a b) ++ Y = prodTail a ++ ('*' :: (printUnary b ++ Y)) := by
        simp [prodTail]
      rw [ht, haPS g lf acc ('*' :: (printUnary b ++ Y)) (by omega) (by omega)
        ⟨by decide, by decide⟩]
      obtain ⟨m, hm⟩ : ∃ m, lf - prodLinks a = m + 1 := ⟨lf - prodLinks a - 1, by omega⟩
      rw [hm]
      have hop : (mulOp : P (Expr α → Expr α → Expr α)) ('*' :: (printUnary b ++ Y))
          = some (Expr.Mul, printUnary b ++ Y) :=
        mulOp_star (printUnary b ++ Y)
          (goodHead_dropWhile_ws (goodHead_append (printHeads b hlb).2.2.1))
      have hitem := hbU g (g + 1) Y (by omega) (by omega) hstop
      simp only [chainlLoop, hop, hitem]
      have e3 : prodGraft ofNat acc (AExp.mul a b)
          = .Mul (prodGraft ofNat acc a) (toExpr ofNat b) := rfl
      have hm2 : lf - prodLinks (AExp.mul a b) = m := by omega
      rw [e3, hm2]
    have hP : stmtP ofNat (.mul a b) := by
      intro g rest hsz hstop
      have e2 : sizeA (AExp.mul a b) = sizeA a + sizeA b + 1 := rfl
      have hsh := sizeA_prodHead a
      have hxh := extraU_le_one (prodHead a)
      have hnh := negCount_lt_sizeA (prodHead a)
      have hsb := sizeA_pos b
      have hlk := prodLinks_lt_sizeA (AExp.mul a b)
      rw [ProdP, mkProduct, printProd_decomp]
      have hh : prodHead (AExp.mul a b) = prodHead a := rfl
      rw [hh, List.append_assoc]
      have hitem := haUH g (g + 1) (prodTail (AExp.mul a b) ++ rest) (by omega) (by omega)
        (stopAtom_prodTail _ hstop)
      rw [mkChain_start hitem]
      rw [hPS g (g + 1) (toExpr ofNat (prodHead a)) rest (by omega) (by omega)
        (stopAtom_of_stopProd hstop)]
      have hg : prodGraft ofNat (toExpr ofNat (prodHead a)) (AExp.mul a b)
          = toExpr ofNat (AExp.mul a b) := by
        have := prodGraft_toExpr ofNat (AExp.mul a b)
        rwa [hh] at this
      rw [hg]
      obtain ⟨m, hm⟩ : ∃ m, g + 1 - prodLinks (AExp.mul a b) = m + 1 :=
        ⟨g - prodLinks (AExp.mul a b), by omega⟩
      rw [hm, chainlLoop_stop (mulOp_stop hstop)]
    have hS := stmtS_of_stmtP ofNat (.mul a b) rfl rfl hP
    have hA := stmtA_of_stmtS ofNat (.mul a b) rfl hS
    have hU := stmtU_of_stmtA ofNat (.mul a b) hl rfl rfl rfl hA
    exact ⟨hA, hU, hP, hS, stmtSSeg_trivial ofNat (.mul a b) rfl (fun _ => rfl) rfl,
      hPS, hP, haUH⟩
  | div a b iha ihb =>
    have hla : litsOk a = true := by
      have := hl
      simp only [litsOk, Bool.and_eq_true] at this
      exact this.1
    have hlb : litsOk b = true := by
      have := hl
      simp only [litsOk, Bool.and_eq_true] at this
      exact this.2
    obtain ⟨haA, haU, haP, haS, haSS, haPS, haPH, haUH⟩ := iha hla
    obtain ⟨hbA, hbU, hbP, hbS, hbSS, hbPS, hbPH, hbUH⟩ := ihb hlb
    have hPS : stmtPSeg ofNat (.div a b) := by
      intro g lf acc Y hsz hlinks hstop
      have e1 : prodLinks (AExp.div a b) = prodLinks a + 1 := rfl
      have e2 : sizeA (AExp.div a b) = sizeA a + sizeA b + 1 := rfl
      have hsb := sizeA_pos b
      have hsa := sizeA_pos a
      have hxb := extraU_le_one b
      have hnb := negCount_lt_sizeA b
      have ht : prodTail (AExp.div a b) ++ Y = prodTail a ++ ('/' :: (printUnary b ++ Y)) := by
        simp [prodTail]
      rw [ht, haPS g lf acc ('/' :: (printUnary b ++ Y)) (by omega) (by omega)
        ⟨by decide, by decide⟩]
      obtain ⟨m, hm⟩ : ∃ m, lf - prodLinks a = m + 1 := ⟨lf - prodLinks a - 1, by omega⟩
      rw [hm]
      have hop : (mulOp : P (Expr α → Expr α → Expr α)) ('/' :: (printUnary b ++ Y))
          = some (Expr.Div, printUnary b ++ Y) :=
        mulOp_slash (printUnary b ++ Y)
          (goodHead_dropWhile_ws (goodHead_append (printHeads b hlb).2.2.1))
      have hitem := hbU g (g + 1) Y (by omega) (by omega) hstop
      simp only [chainlLoop, hop, hitem]
      have e3 : prodGraft ofNat acc (AExp.div a b)
          = .Div (prodGraft ofNat acc a) (toExpr ofNat b) := rfl
      have hm2 : lf - prodLinks (AExp.div a b) = m := by omega
      rw [e3, hm2]
    have hP : stmtP ofNat (.div a b) := by
      intro g rest hsz hstop
      have e2 : sizeA (AExp.div a b) = sizeA a + sizeA b + 1 := rfl
      have hsh := sizeA_prodHead a
      have hxh := extraU_le_one (prodHead a)
      have hnh := negCount_lt_sizeA (prodHead a)
      have hsb := sizeA_pos b
      have hlk := prodLinks_lt_sizeA (AExp.div a b)
      rw [ProdP, mkProduct, printProd_decomp]
      have hh : prodHead (AExp.div a b) = prodHead a := rfl
      rw [hh, List.append_assoc]
      have hitem := haUH g (g + 1) (prodTail (AExp.div a b) ++ rest) (by omega) (by omega)
        (stopAtom_prodTail _ hstop)
      rw [mkChain_start hitem]
      rw [hPS g (g + 1) (toExpr ofNat (prodHead a)) rest (by omega) (by omega)
        (stopAtom_of_stopProd hstop)]
      have hg : prodGraft ofNat (toExpr ofNat (prodHead a)) (AExp.div a b)
          = toExpr ofNat (AExp.div a b) := by
        have := prodGraft_toExpr ofNat (AExp.div a b)
        rwa [hh] at this
      rw [hg]
      obtain ⟨m, hm⟩ : ∃ m, g + 1 - prodLinks (AExp.div a b) = m + 1 :=
        ⟨g - prodLinks (AExp.div a b), by omega⟩
      rw [hm, chainlLoop_stop (mulOp_stop hstop)]
    have hS := stmtS_of_stmtP ofNat (.div a b) rfl rfl hP
    have hA := stmtA_of_stmtS ofNat (.div a b) rfl hS
    have hU := stmtU_of_stmtA ofNat (.div a b) hl rfl rfl rfl hA
    exact ⟨hA, hU, hP, hS, stmtSSeg_trivial ofNat (.div a b) rfl (fun _ => rfl) rfl,
      hPS, hP, haUH⟩

/-! ### C4: from the declaration level down to the sum grammar -/

theorem pKeyword_fail {kw : String} {c : Char} {t : List Char} (h : identStart c = false) :
    pKeyword kw (c :: t) = none := by
  simp [pKeyword, pIdentRaw, h]

theorem mkLet_none {α : Type} {sub decl : P (Expr α)} {s : List Char}
    (h : pKeyword "let" s = none) : mkLet sub decl s = none := by
  simp [mkLet, pMap, pThen, pThenIgnore, pIgnoreThen, h]

theorem mkFn_none {α : Type} {sub decl : P (Expr α)} {lf : Nat} {s : List Char}
    (h : pKeyword "fn" s = none) : mkFn sub decl lf s = none := by
  simp [mkFn, pMap, pThen, pThenIgnore, pIgnoreThen, h]

/-- The whole pipeline on a printed arithmetic expression: `parse` returns
exactly the expected tree. -/
theorem parse_print {α : Type} (ofNat : Nat → α) (e : AExp) (hl : litsOk e = true) :
    parse ofNat (String.mk (printSum e)) = some (toExpr ofNat e) := by
  have hgood := (printHeads e hl).1
  obtain ⟨c, t, hct⟩ : ∃ c t, printSum e = c :: t := by
    cases hpe : printSum e with
    | nil => rw [hpe] at hgood; exact hgood.elim
    | cons c t => exact ⟨c, t, rfl⟩
  have hid : identStart c = false := by
    have hg2 := hgood
    rw [hct] at hg2
    rcases hg2 with hd | rfl | rfl
    · exact digit_not_identStart hd
    · decide
    · decide
  have hL1 : 1 ≤ (printSum e).length := by rw [hct]; simp
  obtain ⟨g, hg⟩ : ∃ g, (printSum e).length = g + 1 :=
    ⟨(printSum e).length - 1, by omega⟩
  have hS := (parserLevels ofNat e hl).2.2.2.1 g []
    (by have := sizeA_le_len e hl; omega) trivial
  rw [List.append_nil] at hS
  have hexpr : pExpr ofNat (g + 1) (printSum e) = some (toExpr ofNat e, []) := by
    rw [pExpr_succ]; exact hS
  have hkwl : pKeyword "let" (printSum e) = none := by rw [hct]; exact pKeyword_fail hid
  have hkwf : pKeyword "fn" (printSum e) = none := by rw [hct]; exact pKeyword_fail hid
  have hdw : (printSum e).dropWhile Char.isWhitespace = printSum e :=
    goodHead_dropWhile_ws hgood
  have hinner : pOr (pOr (mkLet (fun s => pExpr ofNat (g + 1) s)
          (fun s => pDecl ofNat (g + 1) s))
        (mkFn (fun s => pExpr ofNat (g + 1) s) (fun s => pDecl ofNat (g + 1) s)
          (g + 1 + 1)))
      (fun s => pExpr ofNat (g + 1) s) (printSum e) = some (toExpr ofNat e, []) := by
    have hno1 : pOr (mkLet (fun s => pExpr ofNat (g + 1) s) (fun s => pDecl ofNat (g + 1) s))
        (mkFn (fun s => pExpr ofNat (g + 1) s) (fun s => pDecl ofNat (g + 1) s)
          (g + 1 + 1)) (printSum e) = none := by
      rw [pOr_none (mkLet_none hkwl)]
      exact mkFn_none hkwf
    rw [pOr_none hno1]
    exact hexpr
  have hdecl : pDecl ofNat ((printSum e).length + 1) (printSum e)
      = some (toExpr ofNat e, []) := by
    rw [hg]
    show pDecl ofNat (g + 1 + 1) (printSum e) = _
    rw [pDecl]
    simp only [pPadded, hdw, hinner]
    rfl
  have h1 : (String.mk (printSum e)).length = (printSum e).length := rfl
  have h2 : (String.mk (printSum e)).toList = printSum e := rfl
  simp only [parse, h1, h2, hdecl]

/-- Evaluating the tree of an arithmetic expression yields its spec-side
meaning, leaving the stacks untouched, at any sufficient fuel. -/
theorem toExpr_eval {α : Type} (ofNat : Nat → α) (O : Ops α) (e : AExp) :
    ∀ (fuel : Nat) (vars : Vars α) (funcs : Funcs α), heightA e ≤ fuel →
      eval O fuel (toExpr ofNat e) vars funcs
        = some (.ok (specEval ofNat O e), vars, funcs) := by
  induction e with
  | num ds =>
    intro fuel vars funcs hh
    obtain ⟨f, rfl⟩ : ∃ f, fuel = f + 1 := ⟨fuel - 1, by simp [heightA] at hh; omega⟩
    simp [toExpr, eval, specEval]
  | neg a iha =>
    intro fuel vars funcs hh
    simp only [heightA] at hh
    obtain ⟨f, rfl⟩ : ∃ f, fuel = f + 1 := ⟨fuel - 1, by omega⟩
    simp [toExpr, eval, specEval, iha f vars funcs (by omega)]
  | add a b iha ihb =>
    intro fuel vars funcs hh
    simp only [heightA] at hh
    obtain ⟨f, rfl⟩ : ∃ f, fuel = f + 1 := ⟨fuel - 1, by omega⟩
    simp [toExpr, eval, specEval, iha f vars funcs (by omega), ihb f vars funcs (by omega)]
  | sub a b iha ihb =>
    intro fuel vars funcs hh
    simp only [heightA] at hh
    obtain ⟨f, rfl⟩ : ∃ f, fuel = f + 1 := ⟨fuel - 1, by omega⟩
    simp [toExpr, eval, specEval, iha f vars funcs (by omega), ihb f vars funcs (by omega)]
  | mul a b iha ihb =>
    intro fuel vars funcs hh
    simp only [heightA] at hh
    obtain ⟨f, rfl⟩ : ∃ f, fuel = f + 1 := ⟨fuel - 1, by omega⟩
    simp [toExpr, eval, specEval, iha f vars funcs (by omega), ihb f vars funcs (by omega)]
  | div a b iha ihb =>
    intro fuel vars funcs hh
    simp only [heightA] at hh
    obtain ⟨f, rfl⟩ : ∃ f, fuel = f + 1 := ⟨fuel - 1, by omega⟩
    simp [toExpr, eval, specEval, iha f vars funcs (by omega), ihb f vars funcs (by omega)]

/-- C4: for every well-formed arithmetic source expression — the canonical
rendering of any precedence tree `e` with well-formed literals — `parse`
produces exactly the tree `toExpr e` encoding the precedence
`unary > {* /} > {+ -}` with `*`, `/`, `+`, `-` left-associative, and
evaluation returns the spec-side meaning `specEval e`: standard arithmetic
applied over that structure. Both statements hold for an arbitrary carrier,
literal injection `ofNat` and operation record `O`, so instantiating them
with IEEE `f64` semantics yields exactly standard floating-point
arithmetic. -/
theorem parse_eval_arithmetic {α : Type} (ofNat : Nat → α) (O : Ops α) (e : AExp)
    (hl : litsOk e = true) :
    parse ofNat (String.mk (printSum e)) = some (toExpr ofNat e)
    ∧ ∀ fuel : Nat, heightA e ≤ fuel →
        eval O fuel (toExpr ofNat e) [] [] = some (.ok (specEval ofNat O e), [], []) :=
  ⟨parse_print ofNat e hl, fun fuel h => toExpr_eval ofNat O e fuel [] [] h⟩

/-- Witness for `parse_eval_arithmetic` at the source expression `1+2*3`
over the integer carrier: it parses to `Add (Num 1) (Mul (Num 2) (Num 3))`
and evaluates to `7`. -/
theorem parse_eval_arithmetic_witness :
    parse Int.ofNat (String.mk (printSum (AExp.add (.num ['1'])
        (AExp.mul (.num ['2']) (.num ['3'])))))
      = some (toExpr Int.ofNat (AExp.add (.num ['1'])
          (AExp.mul (.num ['2']) (.num ['3']))))
    ∧ eval intOps 3 (toExpr Int.ofNat (AExp.add (.num ['1'])
        (AExp.mul (.num ['2']) (.num ['3'])))) [] []
      = some (.ok (specEval Int.ofNat intOps (AExp.add (.num ['1'])
          (AExp.mul (.num ['2']) (.num ['3'])))), [], []) :=
  ⟨(parse_eval_arithmetic Int.ofNat intOps
      (AExp.add (.num ['1']) (AExp.mul (.num ['2']) (.num ['3']))) (by decide)).1,
   (parse_eval_arithmetic Int.ofNat intOps
      (AExp.add (.num ['1']) (AExp.mul (.num ['2']) (.num ['3']))) (by decide)).2 3
     (by decide)⟩

end Felicity
